import Mathlib

/-!
Verification of the exponential-family-distribution repository.

The development shallowly embeds the Python sources:

* `src/efd/linear_algebra/matrix.py` — the matrix value model.  The numeric
  payload of a matrix is a `List (List α)` of its rows; the class-tag layer
  (`RowVector`/`ColumnVector`/`SquareMatrix`/`RectangularMatrix`) is embedded
  separately as `PyMatrix` for the claims about construction and equality.
  Python floats are idealised as an arbitrary `LinearOrderedField` (the spec
  reasons "over exact arithmetic"); the float literal `1e-4` becomes `1/10000`.
* `src/efd/linear_algebra/gaussian_elimination/*.py` — elementary row
  operators, `solve`, `invert`, `determinant`.
* `src/efd/distribution/{exponential_family,gaussian_distribution}.py` — the
  Gaussian density, over `ℝ` (it uses `exp`, `log`, `π`).

Python exceptions are modelled by `Except PyError`; `PyError` names the raised
exception class (the spec calls `ValueError` at construction time a
`ShapeError`, `ValueError` from an operation a `DimensionError`, and the
`RuntimeError` of a failed pivot a `SingularMatrixError`).
-/

set_option linter.unusedSectionVars false
set_option linter.unusedVariables false

namespace EFD

/-- The exception classes the embedded code can raise.  `recursionError` is an
artifact of embedding the structurally recursive `_operate_on_one_column` with
fuel; it is never produced on well-formed (square, non-empty) input. -/
inductive PyError where
  | valueError
  | indexError
  | typeError
  | attributeError
  | runtimeError
  | recursionError
  deriving DecidableEq, Repr

/-- The rows of a matrix: the `rows: Tuple[Tuple[float, ...], ...]` field of
`Matrix`. -/
abbrev Mat (α : Type) := List (List α)

variable {α : Type} [LinearOrderedField α]

/-- `Matrix.n_rows`: `len(self.rows)`. -/
def n_rows (m : Mat α) : ℕ := m.length

/-- `Matrix.n_columns`: `len(self.rows[0])` (0 for the empty list, which the
Python class forbids). -/
def n_columns (m : Mat α) : ℕ := (m.headD []).length

/-- Element access `self.rows[i][j]` (total, defaulting to 0 out of range;
claims always constrain indices by well-formedness). -/
def entry (m : Mat α) (i j : ℕ) : α := (m.getD i []).getD j 0

/-- `Matrix._column(j)`: the generator `(row[j] for row in self.rows)`. -/
def column (m : Mat α) (j : ℕ) : List α := m.map (fun row => row.getD j 0)

/-- `Matrix.columns`: one column per column index. -/
def columns (m : Mat α) : Mat α := (List.range (n_columns m)).map (column m)

/-- `Matrix.transpose`: `from_iterator(self.columns)`. -/
def transpose (m : Mat α) : Mat α := columns m

/-- The dot product in `__multiply_row_with_matrix`:
`sum(rv * cv for rv, cv in zip(row, column))`. -/
def dot (xs ys : List α) : α := (List.zipWith (· * ·) xs ys).sum

/-- `Matrix.__mul__` (numeric payload): for each row of `a`, the dot products
with the columns of `b`. -/
def multiply (a b : Mat α) : Mat α :=
  a.map (fun row => (columns b).map (fun c => dot row c))

/-- `identity_matrix(n)`: 1 on the diagonal, 0 elsewhere. -/
def identity_matrix (n : ℕ) : Mat α :=
  (List.range n).map (fun i => (List.range n).map (fun j => if i = j then (1 : α) else 0))

/-- Shape well-formedness: `r` rows, each of length `c`.  This is the invariant
`Matrix.__post_init__` maintains for every constructed Python matrix. -/
def WF (m : Mat α) (r c : ℕ) : Prop := m.length = r ∧ ∀ row ∈ m, row.length = c

/-- The three `ElementaryRowOperator` variants of
`elementary_row_operator.py`. -/
inductive ElementaryRowOperator (α : Type) where
  | permutation (indices_of_rows_to_interchange : ℕ × ℕ)
  | multiplication (index_of_row_to_multiply : ℕ) (scalar : α)
  | axpy (scalar : α) (index_of_row_to_multiply : ℕ) (index_of_row_to_replace : ℕ)
  deriving DecidableEq, Repr

namespace ElementaryRowOperator

/-- `ElementaryPermutation.__matrix_row` / `ElementaryMultiplication`'s helper:
the standard basis row with a 1 in position `t`. -/
def unit_row (n t : ℕ) : List α := (List.range n).map (fun c => if c = t then (1 : α) else 0)

/-- `ElementaryPermutation._matrix`: row `i` is the unit row of `i` when
`i ∉ {a, b}`, of `b` when `i = a`, and of `a` when `i = b`. -/
def perm_matrix (a b n : ℕ) : Mat α :=
  (List.range n).map (fun i =>
    if i ≠ a ∧ i ≠ b then unit_row n i
    else if i = a then unit_row n b
    else unit_row n a)

/-- `ElementaryMultiplication._matrix`: off-diagonal 0; diagonal `s` at row `k`
and 1 elsewhere. -/
def mult_matrix (k : ℕ) (s : α) (n : ℕ) : Mat α :=
  (List.range n).map (fun i => (List.range n).map (fun j =>
    if i ≠ j then 0 else if i = k then s else 1))

/-- `ElementaryAxpy._matrix`: 1 on the diagonal, `s` at `(r, k)`, 0
elsewhere. -/
def axpy_matrix (s : α) (k r n : ℕ) : Mat α :=
  (List.range n).map (fun i => (List.range n).map (fun j =>
    if i = j then 1 else if i = r ∧ j = k then s else 0))

/-- `_matrix(n_rows)` of each variant. -/
def operator_matrix : ElementaryRowOperator α → ℕ → Mat α
  | .permutation (a, b), n => perm_matrix a b n
  | .multiplication k s, n => mult_matrix k s n
  | .axpy s k r, n => axpy_matrix s k r n

/-- `ElementaryRowOperator.apply`: `self._matrix(m.n_rows) * m`. -/
def apply (op : ElementaryRowOperator α) (m : Mat α) : Mat α :=
  multiply (operator_matrix op (n_rows m)) m

/-- `inverted()` of each variant: a permutation is its own inverse, a
multiplication's scalar becomes `1.0 / scalar`, an axpy's scalar becomes
`-1 * scalar`. -/
def inverted : ElementaryRowOperator α → ElementaryRowOperator α
  | .permutation p => .permutation p
  | .multiplication k s => .multiplication k (1 / s)
  | .axpy s k r => .axpy (-1 * s) k r

/-- `matrix_determinant` of each variant. -/
def matrix_determinant : ElementaryRowOperator α → α
  | .permutation (a, b) => if a = b then 1 else -1
  | .multiplication _ s => s
  | .axpy _ _ _ => 1

end ElementaryRowOperator

/-- `apply_operators(m, operators)`: left-to-right application. -/
def apply_operators (m : Mat α) : List (ElementaryRowOperator α) → Mat α
  | [] => m
  | op :: rest => apply_operators (op.apply m) rest

/-- The numerical tolerance `1e-4` of `__partial_pivot_operator`. -/
def tolerance : α := 1 / 10000

/-- The `for row_index in range(index, m.n_rows)` loop of
`__partial_pivot_operator`: return a swap with the first row whose entry in the
column exceeds the tolerance, else fall through to the `RuntimeError`. -/
def pivot_search (m : Mat α) (index : ℕ) :
    List ℕ → Except PyError (ElementaryRowOperator α)
  | [] => .error .runtimeError
  | r :: rest =>
    if tolerance < |entry m r index| then .ok (.permutation (index, r))
    else pivot_search m index rest

/-- `__partial_pivot_operator`: no-op permutation when the diagonal entry is
large enough, else the first row from the diagonal downwards whose entry in
this column exceeds the tolerance; `RuntimeError` when none exists. -/
def partial_pivot_operator (m : Mat α) (index : ℕ) :
    Except PyError (ElementaryRowOperator α) :=
  if tolerance < |entry m index index| then .ok (.permutation (0, 0))
  else pivot_search m index (List.range' index (n_rows m - index))

/-- `__non_diagonal_zeroing_operators`: for every row other than `index`, an
axpy subtracting that row's entry in this column times the diagonal row. -/
def non_diagonal_zeroing_operators (m : Mat α) (index : ℕ) :
    List (ElementaryRowOperator α) :=
  ((List.range (n_rows m)).filter (fun r => decide (r ≠ index))).map
    (fun r => .axpy (-1 * entry m r index) index r)

/-- `__diagonal_scaling_operator`: scale row `index` by
`1.0 / m.rows[index][index]`. -/
def diagonal_scaling_operator (m : Mat α) (index : ℕ) : ElementaryRowOperator α :=
  .multiplication index ((1 : α) / entry m index index)

/-- `_operate_on_one_column`.  The Python recursion increases `column_index`
until it reaches `m.n_columns`; the embedding makes this structural with fuel
(`solve` passes `n_columns a`, which is exact for square input, so the
`recursionError` branch is unreachable on well-formed input). -/
def operate_on_one_column :
    ℕ → Mat α → ℕ → Mat α → List (ElementaryRowOperator α) →
    Except PyError (Mat α × List (ElementaryRowOperator α))
  | 0, m, column_index, result, applied_operators =>
    if n_columns m = column_index then .ok (result, applied_operators)
    else .error .recursionError
  | fuel + 1, m, column_index, result, applied_operators =>
    if n_columns m = column_index then .ok (result, applied_operators)
    else
      match partial_pivot_operator m column_index with
      | .error e => .error e
      | .ok pivot_operator =>
        let pivoted := pivot_operator.apply m
        let operators := diagonal_scaling_operator pivoted column_index ::
          non_diagonal_zeroing_operators pivoted column_index
        operate_on_one_column fuel (apply_operators pivoted operators) (column_index + 1)
          (apply_operators (pivot_operator.apply result) operators)
          (applied_operators ++ pivot_operator :: operators)

/-- `solve(a, y)`: reduce from column 0 with an empty trace. -/
def solve (a y : Mat α) : Except PyError (Mat α × List (ElementaryRowOperator α)) :=
  operate_on_one_column (n_columns a) a 0 y []

/-- `invert(m)`: the solved X of `solve(m, identity)` (the `as_square_matrix`
cast does not change the rows). -/
def invert (m : Mat α) : Except PyError (Mat α) := do
  let (x, _) ← solve m (identity_matrix (n_rows m))
  return x

/-- `determinant(m)`: product of `op.inverted().matrix_determinant` over the
trace of `solve(m, identity)`.  Python's seedless `reduce` raises `TypeError`
on an empty sequence. -/
def determinant (m : Mat α) : Except PyError α := do
  let (_, operators) ← solve m (identity_matrix (n_rows m))
  match operators.map (fun op => op.inverted.matrix_determinant) with
  | [] => .error .typeError
  | d :: ds => return ds.foldl (· * ·) d

deriving instance DecidableEq for Except

/-! ### The Python class layer (`matrix.py`) -/

/-- The four refinement classes of `matrix.py`. -/
inductive MatrixClass where
  | rowVector
  | columnVector
  | squareMatrix
  | rectangularMatrix
  deriving DecidableEq, Repr

/-- A constructed Python matrix: its (frozen dataclass) `rows` field plus the
class it was constructed as. -/
structure PyMatrix (α : Type) where
  cls : MatrixClass
  rows : Mat α
  deriving DecidableEq, Repr

/-- `Matrix.__post_init__`: rows of inconsistent sizes raise `ValueError`, then
an empty matrix raises `ValueError` (`n_columns` is only reached when
`n_rows ≠ 0`, matching the short-circuiting `or`). -/
def base_post_init (rows : Mat α) : Except PyError Unit :=
  if 1 < ((rows.map List.length).dedup).length then .error .valueError
  else if rows.length = 0 then .error .valueError
  else if (rows.headD []).length = 0 then .error .valueError
  else .ok ()

/-- `RowVector.__post_init__`: the one-row check runs before the base
checks. -/
def mk_row_vector (rows : Mat α) : Except PyError (PyMatrix α) :=
  if rows.length ≠ 1 then .error .valueError
  else (base_post_init rows).map (fun _ => ⟨.rowVector, rows⟩)

/-- `ColumnVector.__post_init__`: evaluating `n_columns` indexes `rows[0]`
(an `IndexError` on an empty rows tuple) before the base checks. -/
def mk_column_vector (rows : Mat α) : Except PyError (PyMatrix α) :=
  match rows.head? with
  | none => .error .indexError
  | some r0 =>
    if r0.length ≠ 1 then .error .valueError
    else (base_post_init rows).map (fun _ => ⟨.columnVector, rows⟩)

/-- `SquareMatrix.__post_init__`: base checks first, then squareness. -/
def mk_square_matrix (rows : Mat α) : Except PyError (PyMatrix α) :=
  (base_post_init rows).bind (fun _ =>
    if rows.length ≠ (rows.headD []).length then .error .valueError
    else .ok ⟨.squareMatrix, rows⟩)

/-- `RectangularMatrix.__post_init__`: base checks first, then
non-squareness. -/
def mk_rectangular_matrix (rows : Mat α) : Except PyError (PyMatrix α) :=
  (base_post_init rows).bind (fun _ =>
    if rows.length = (rows.headD []).length then .error .valueError
    else .ok ⟨.rectangularMatrix, rows⟩)

/-- `Matrix.make`: `n_columns = len(rows[0])` raises `IndexError` on an empty
rows sequence; otherwise dispatch on shape — one row first, then one column,
then square, else rectangular. -/
def make (rows : Mat α) : Except PyError (PyMatrix α) :=
  match rows.head? with
  | none => .error .indexError
  | some r0 =>
    if rows.length = 1 then mk_row_vector rows
    else if r0.length = 1 then mk_column_vector rows
    else if rows.length = r0.length then mk_square_matrix rows
    else mk_rectangular_matrix rows

/-- The rows built by `column_vector(*elements)`: one row per element. -/
def column_vector_rows (elements : List α) : Mat α := elements.map (fun e => [e])

/-- `column_vector(*elements)`: constructs a `ColumnVector` directly (not via
`make`). -/
def column_vector (elements : List α) : Except PyError (PyMatrix α) :=
  mk_column_vector (column_vector_rows elements)

/-- Python `==` between matrices: the dataclass-generated `__eq__` compares the
`rows` field only between operands of the *same* class
(`other.__class__ is self.__class__`); operands of different classes return
`NotImplemented` on both sides, and Python falls back to identity, i.e.
`False` for distinct values. -/
def py_eq (a b : PyMatrix α) : Prop := a.cls = b.cls ∧ a.rows = b.rows

instance py_eq_decidable [DecidableEq α] (a b : PyMatrix α) : Decidable (py_eq a b) := by
  unfold py_eq
  infer_instance

/-- A Python operand of a matrix binary operator: a float or a matrix. -/
inductive PyVal (α : Type) where
  | scalar (c : α)
  | mat (m : PyMatrix α)
  deriving DecidableEq, Repr

/-- `Matrix.__add__`: its first statement reads `other.n_rows`, which raises
`AttributeError` when `other` is a float; mismatched dimensions raise
`ValueError` (the spec's DimensionError); otherwise the elementwise sum, with
the class of `self` preserved by `_replace_rows`. -/
def dunder_add (self : PyMatrix α) : PyVal α → Except PyError (PyMatrix α)
  | .scalar _ => .error .attributeError
  | .mat other =>
    if n_rows self.rows ≠ n_rows other.rows ∨ n_columns self.rows ≠ n_columns other.rows then
      .error .valueError
    else .ok ⟨self.cls, List.zipWith (List.zipWith (· + ·)) self.rows other.rows⟩

/-- `Matrix.__radd__`: `other + x` elementwise, class preserved. -/
def dunder_radd (self : PyMatrix α) (other : α) : PyMatrix α :=
  ⟨self.cls, self.rows.map (fun row => row.map (fun x => other + x))⟩

/-- `Matrix.__sub__`: same protocol as `__add__`. -/
def dunder_sub (self : PyMatrix α) : PyVal α → Except PyError (PyMatrix α)
  | .scalar _ => .error .attributeError
  | .mat other =>
    if n_rows self.rows ≠ n_rows other.rows ∨ n_columns self.rows ≠ n_columns other.rows then
      .error .valueError
    else .ok ⟨self.cls, List.zipWith (List.zipWith (· - ·)) self.rows other.rows⟩

/-- `Matrix.__rsub__`: `other - x` elementwise, class preserved. -/
def dunder_rsub (self : PyMatrix α) (other : α) : PyMatrix α :=
  ⟨self.cls, self.rows.map (fun row => row.map (fun x => other - x))⟩

/-- `Matrix.__mul__`: reads `other.n_rows` (`AttributeError` for a float);
mismatched inner dimensions raise `ValueError`; otherwise the matrix product,
rebuilt through `from_iterator`, i.e. `Matrix.make` re-derives the class. -/
def dunder_mul (self : PyMatrix α) : PyVal α → Except PyError (PyMatrix α)
  | .scalar _ => .error .attributeError
  | .mat other =>
    if n_columns self.rows ≠ n_rows other.rows then .error .valueError
    else make (multiply self.rows other.rows)

/-- `Matrix.__rmul__`: `other * x` elementwise, class preserved. -/
def dunder_rmul (self : PyMatrix α) (other : α) : PyMatrix α :=
  ⟨self.cls, self.rows.map (fun row => row.map (fun x => other * x))⟩

/-- Python's protocol for `a + b`: a matrix left operand calls
`Matrix.__add__`; its `AttributeError` on a float right operand propagates —
Python falls back to the reflected method only on `NotImplemented`, never on a
raised exception.  A float left operand returns `NotImplemented` from
`float.__add__`, so Python calls `Matrix.__radd__`. -/
def py_add : PyVal α → PyVal α → Except PyError (PyVal α)
  | .mat a, b => (dunder_add a b).map .mat
  | .scalar c, .mat b => .ok (.mat (dunder_radd b c))
  | .scalar a, .scalar b => .ok (.scalar (a + b))

/-- Python's protocol for `a - b` (see `py_add`). -/
def py_sub : PyVal α → PyVal α → Except PyError (PyVal α)
  | .mat a, b => (dunder_sub a b).map .mat
  | .scalar c, .mat b => .ok (.mat (dunder_rsub b c))
  | .scalar a, .scalar b => .ok (.scalar (a - b))

/-- Python's protocol for `a * b` (see `py_add`). -/
def py_mul : PyVal α → PyVal α → Except PyError (PyVal α)
  | .mat a, b => (dunder_mul a b).map .mat
  | .scalar c, .mat b => .ok (.mat (dunder_rmul b c))
  | .scalar a, .scalar b => .ok (.scalar (a * b))

/-! ### The distribution layer (`exponential_family.py`, `gaussian_distribution.py`) -/

/-- `as_scalar(m)`: the single element of a 1-by-1 matrix, `ValueError`
otherwise. -/
def as_scalar (m : Mat α) : Except PyError α :=
  if n_rows m = 1 ∧ n_columns m = 1 then .ok (entry m 0 0) else .error .valueError

/-- `_flatten(m)`: row-major traversal by index pairs. -/
def flatten (m : Mat α) : List α :=
  (List.range (n_rows m)).flatMap (fun i => (List.range (n_columns m)).map (fun j => entry m i j))

/-- The elementwise payload of `__rmul__`, e.g. `-0.5 * precision`. -/
def scalar_mul (c : α) (m : Mat α) : Mat α := m.map (fun row => row.map (fun x => c * x))

/-- `GaussianDistributionParameter.precision`: `invert(self.covariance)` (the
`mean` component plays no role). -/
def precision (covariance : Mat α) : Except PyError (Mat α) := invert covariance

/-- `GaussianDistribution.density(x)` for the parameter `(mean, covariance)`,
assembled from `ExponentialFamily.density` and the four Gaussian hooks:
`h(x)·exp(−a(θ) + ηᵀ·T(x))` with
`h(x) = (2π)^(−n_rows x / 2)`,
`a(θ) = (meanᵀ·precision·mean + ln det(covariance)) / 2`,
`η = column_vector(flatten(precision·mean) ++ flatten(−½·precision))`,
`T(x) = column_vector(flatten(x) ++ flatten(x·xᵀ))`,
and the dot product `ηᵀ·T(x)` reduced by `as_scalar`. -/
noncomputable def gaussian_density (mean covariance x : Mat ℝ) : Except PyError ℝ := do
  let prec ← precision covariance
  let det ← determinant covariance
  let mtm ← as_scalar (multiply (multiply (transpose mean) prec) mean)
  let log_partition := (mtm + Real.log det) / 2
  let natural_parameter := column_vector_rows
    (flatten (multiply prec mean) ++ flatten (scalar_mul (-(1 / 2)) prec))
  let suff := column_vector_rows (flatten x ++ flatten (multiply x (transpose x)))
  let dp ← as_scalar (multiply (transpose natural_parameter) suff)
  let base_measure := (2 * Real.pi) ^ (-(n_rows x : ℝ) / 2)
  return base_measure * Real.exp (-log_partition + dp)

/-! ### Specification-side definitions -/

/-- The elementwise difference `a − b` (the numeric payload of
`Matrix.__sub__`), used to write the spec formula `x − μ`. -/
def mat_sub (a b : Mat α) : Mat α := List.zipWith (List.zipWith (· - ·)) a b

/-- Bridge to Mathlib: the `r × c` matrix of entries of a row list. -/
def toM (r c : ℕ) (m : Mat α) : Matrix (Fin r) (Fin c) α :=
  Matrix.of (fun i j => entry m (i : ℕ) (j : ℕ))

/-- Modelled from the spec closed form: the multivariate normal density
`(2π)^(−k/2) · det(Σ)^(−1/2) · exp(−½ (x−μ)ᵀ Σ⁻¹ (x−μ))`.  `Σ⁻¹` is passed as
`prec` (the claim theorem carries the proof that it is the two-sided inverse
of the covariance) and `det` is the true (Mathlib) determinant of the
covariance. -/
noncomputable def closed_form_normal_density (k : ℕ) (prec : Mat ℝ) (det : ℝ)
    (mean x : Mat ℝ) : ℝ :=
  (2 * Real.pi) ^ (-(k : ℝ) / 2) * det ^ (-(1 : ℝ) / 2) *
    Real.exp (-(1 / 2) *
      entry (multiply (multiply (transpose (mat_sub x mean)) prec) (mat_sub x mean)) 0 0)

/-- The reduction step on one pivoted column exactly as the code performs it:
build the scaling operator and the axpy operators from the *pivoted* matrix,
then apply the scaling followed by the axpys. -/
def code_column_step (pivoted : Mat α) (index : ℕ) : Mat α :=
  apply_operators pivoted (diagonal_scaling_operator pivoted index ::
    non_diagonal_zeroing_operators pivoted index)

/-- Modelled from the spec (§4.3, steps 2–3): scale the diagonal row first,
and only then read each other row's entry in the column — from the *scaled*
matrix — to build the axpy operators. -/
def spec_column_step (pivoted : Mat α) (index : ℕ) : Mat α :=
  apply_operators ((diagonal_scaling_operator pivoted index).apply pivoted)
    (non_diagonal_zeroing_operators
      ((diagonal_scaling_operator pivoted index).apply pivoted) index)

/-- The row relocation performed by an `ElementaryPermutation`: row `i` of the
operator matrix is the unit row of `swap_apply a b i`. -/
def swap_apply (a b i : ℕ) : ℕ := if i = a then b else if i = b then a else i

/-- Validity of an operator's indices and scalar for `n`-row matrices, as
guaranteed by the elimination engine for every operator it emits (the axpy's
source and replaced rows are distinct — the "different row" of the spec). -/
def OpValid (n : ℕ) : ElementaryRowOperator α → Prop
  | .permutation (a, b) => a < n ∧ b < n
  | .multiplication k s => k < n ∧ s ≠ 0
  | .axpy _ k r => k < n ∧ r < n ∧ r ≠ k

/-- `op` is an axpy-replace operator. -/
def IsAxpy : ElementaryRowOperator α → Prop
  | .axpy _ _ _ => True
  | _ => False

/-- The per-column block of the elimination trace: the pivot permutation, then
the scaling (whose scalar is the reciprocal of a pivot exceeding the
tolerance), then axpy-replace operators only. -/
def ColumnBlock (b : List (ElementaryRowOperator α)) : Prop :=
  ∃ p k s axs, b = .permutation p :: .multiplication k s :: axs ∧
    (∃ piv : α, tolerance < |piv| ∧ s = 1 / piv) ∧
    ∀ a ∈ axs, IsAxpy a

/-- The trace of a successful elimination is the concatenation, in application
order, of one `ColumnBlock` per processed column. -/
def BlockShaped (count : ℕ) (ops : List (ElementaryRowOperator α)) : Prop :=
  ∃ blocks : List (List (ElementaryRowOperator α)),
    ops = blocks.flatten ∧ blocks.length = count ∧ ∀ b ∈ blocks, ColumnBlock b

/-- The elimination invariant: every column left of `j` already equals the
corresponding identity column. -/
def ColsFixed (m : Mat α) (n j : ℕ) : Prop :=
  ∀ c < j, ∀ i < n, entry m i c = if i = c then 1 else 0

/-- The Mathlib-side matrix of an elementary row operator. -/
def opM (n : ℕ) (op : ElementaryRowOperator α) : Matrix (Fin n) (Fin n) α :=
  toM n n (ElementaryRowOperator.operator_matrix op n)

/-- Product of the operator matrices of a trace, first operator rightmost, so
that `toM (apply_operators m ops) = ops_product n ops * toM m`. -/
def ops_product (n : ℕ) : List (ElementaryRowOperator α) → Matrix (Fin n) (Fin n) α
  | [] => 1
  | op :: rest => ops_product n rest * opM n op

/-! ### Basic shape and entry lemmas -/

lemma getD_map_range {β : Type} (n i : ℕ) (f : ℕ → β) (d : β) :
    ((List.range n).map f).getD i d = if i < n then f i else d := by
  by_cases h : i < n
  · simp [List.getD_eq_getElem?_getD, List.getElem?_map, List.getElem?_range, h]
  · rw [List.getD_eq_getElem?_getD, List.getElem?_eq_none (by simpa using not_lt.mp h)]
    simp [h]

lemma WF.length {m : Mat α} {r c : ℕ} (h : WF m r c) : m.length = r := h.1

lemma WF.row_length {m : Mat α} {r c : ℕ} (h : WF m r c) {row : List α}
    (hrow : row ∈ m) : row.length = c := h.2 row hrow

lemma WF.getD_length {m : Mat α} {r c : ℕ} (h : WF m r c) {i : ℕ} (hi : i < r) :
    (m.getD i []).length = c := by
  have hi' : i < m.length := by rw [h.1]; exact hi
  rw [List.getD_eq_getElem _ _ hi']
  exact h.2 _ (List.getElem_mem hi')

lemma WF.n_rows_eq {m : Mat α} {r c : ℕ} (h : WF m r c) : n_rows m = r := h.1

lemma WF.n_columns_eq {m : Mat α} {r c : ℕ} (h : WF m r c) (h0 : 0 < r) :
    n_columns m = c := by
  have hm : m ≠ [] := by
    intro hnil
    rw [hnil] at h
    exact absurd (h.1.symm.trans rfl) (by simpa using h0.ne'
      )
  obtain ⟨x, xs, rfl⟩ := List.exists_cons_of_ne_nil hm
  exact h.2 x (List.mem_cons_self x xs)

lemma entry_eq_zero_of_le {m : Mat α} {r c : ℕ} (h : WF m r c) {i j : ℕ}
    (hi : r ≤ i) : entry m i j = 0 := by
  have hrow : m.getD i [] = [] := List.getD_eq_default _ _ (by rw [h.1]; exact hi)
  unfold entry
  rw [hrow]
  rfl

lemma entry_getD_getElem {m : Mat α} {i : ℕ} (hi : i < m.length) (j : ℕ) :
    entry m i j = (m[i]).getD j 0 := by
  unfold entry
  rw [List.getD_eq_getElem _ _ hi]

/-- Extensionality: two matrices of the same well-formed shape with equal
entries are equal lists. -/
lemma Mat_ext {A B : Mat α} {r c : ℕ} (hA : WF A r c) (hB : WF B r c)
    (h : ∀ i < r, ∀ j < c, entry A i j = entry B i j) : A = B := by
  apply List.ext_getElem (by rw [hA.1, hB.1])
  intro i hiA hiB
  apply List.ext_getElem
  · rw [hA.2 _ (List.getElem_mem hiA), hB.2 _ (List.getElem_mem hiB)]
  intro j hjA hjB
  have hir : i < r := by rw [← hA.1]; exact hiA
  have hjc : j < c := by rw [← hA.2 _ (List.getElem_mem hiA)]; exact hjA
  have h2 := h i hir j hjc
  rw [entry_getD_getElem hiA, entry_getD_getElem hiB,
    List.getD_eq_getElem _ _ hjA, List.getD_eq_getElem _ _ hjB] at h2
  exact h2

lemma column_length (m : Mat α) (j : ℕ) : (column m j).length = m.length := by
  simp [column]

lemma column_getD (m : Mat α) (j i : ℕ) : (column m j).getD i 0 = entry m i j := by
  unfold column entry
  by_cases h : i < m.length
  · have h' : i < (m.map (fun row => row.getD j 0)).length := by simpa using h
    rw [List.getD_eq_getElem _ _ h', List.getD_eq_getElem _ _ h, List.getElem_map]
  · rw [List.getD_eq_default _ _ (by simpa using not_lt.mp h),
      List.getD_eq_default _ _ (not_lt.mp h)]
    rfl

lemma length_multiply (a b : Mat α) : (multiply a b).length = a.length := by
  simp [multiply]

lemma WF_multiply (a b : Mat α) : WF (multiply a b) a.length (n_columns b) := by
  refine ⟨length_multiply a b, ?_⟩
  intro row hrow
  simp only [multiply, List.mem_map] at hrow
  obtain ⟨arow, _, rfl⟩ := hrow
  simp [columns]

lemma entry_multiply {a : Mat α} (b : Mat α) {i : ℕ} (j : ℕ) (hi : i < a.length) :
    entry (multiply a b) i j =
      if j < n_columns b then dot (a.getD i []) (column b j) else 0 := by
  have hi' : i < (multiply a b).length := by rw [length_multiply]; exact hi
  rw [entry_getD_getElem hi']
  simp only [multiply]
  rw [List.getElem_map]
  rw [show (columns b).map (fun c => dot (a[i]) c) =
    (List.range (n_columns b)).map (fun j => dot (a[i]) (column b j)) by
      simp [columns, Function.comp]]
  rw [getD_map_range]
  rw [List.getD_eq_getElem _ _ hi]

/-! ### Dot products as finite sums -/

lemma dot_nil_left (ys : List α) : dot ([] : List α) ys = 0 := by simp [dot]

lemma dot_cons_cons (x : α) (xs : List α) (y : α) (ys : List α) :
    dot (x :: xs) (y :: ys) = x * y + dot xs ys := by
  simp [dot]

lemma dot_eq_sum (xs : List α) (ys : List α) :
    dot xs ys = ∑ t ∈ Finset.range (min xs.length ys.length),
      xs.getD t 0 * ys.getD t 0 := by
  induction xs generalizing ys with
  | nil => simp [dot]
  | cons x xs ih =>
    cases ys with
    | nil => simp [dot]
    | cons y ys =>
      rw [dot_cons_cons, ih]
      rw [List.length_cons, List.length_cons, Nat.succ_min_succ, Finset.sum_range_succ']
      simp [add_comm]

/-! ### Unit-row dot products -/

lemma dot_map_range (n : ℕ) (f : ℕ → α) (ys : List α) (h : ys.length = n) :
    dot ((List.range n).map f) ys = ∑ t ∈ Finset.range n, f t * ys.getD t 0 := by
  rw [dot_eq_sum]
  rw [List.length_map, List.length_range, h, min_self]
  refine Finset.sum_congr rfl ?_
  intro t ht
  rw [getD_map_range, if_pos (Finset.mem_range.mp ht)]

lemma dot_single {n t : ℕ} (a : α) {ys : List α} (h : ys.length = n) (ht : t < n) :
    dot ((List.range n).map (fun c => if c = t then a else 0)) ys = a * ys.getD t 0 := by
  rw [dot_map_range n _ ys h]
  have step : ∀ c ∈ Finset.range n,
      (if c = t then a else 0) * ys.getD c 0 = if c = t then a * ys.getD t 0 else 0 := by
    intro c _
    by_cases hc : c = t
    · subst hc
      simp
    · simp [hc]
  rw [Finset.sum_congr rfl step, Finset.sum_ite_eq' (Finset.range n) t]
  rw [if_pos (Finset.mem_range.mpr ht)]

lemma dot_double {n t u : ℕ} (a b : α) {ys : List α} (h : ys.length = n)
    (ht : t < n) (hu : u < n) (htu : t ≠ u) :
    dot ((List.range n).map (fun c => if c = t then a else if c = u then b else 0)) ys
      = a * ys.getD t 0 + b * ys.getD u 0 := by
  rw [dot_map_range n _ ys h]
  have step : ∀ c ∈ Finset.range n,
      (if c = t then a else if c = u then b else 0) * ys.getD c 0
        = (if c = t then a * ys.getD t 0 else 0) + (if c = u then b * ys.getD u 0 else 0) := by
    intro c _
    by_cases hct : c = t
    · subst hct
      simp [htu]
    · by_cases hcu : c = u
      · subst hcu
        simp [hct]
      · simp [hct, hcu]
  rw [Finset.sum_congr rfl step, Finset.sum_add_distrib,
    Finset.sum_ite_eq' (Finset.range n) t, Finset.sum_ite_eq' (Finset.range n) u,
    if_pos (Finset.mem_range.mpr ht), if_pos (Finset.mem_range.mpr hu)]

/-! ### Rows of the operator matrices -/

lemma operator_matrix_length (op : ElementaryRowOperator α) (n : ℕ) :
    (ElementaryRowOperator.operator_matrix op n).length = n := by
  cases op with
  | permutation p =>
    obtain ⟨a, b⟩ := p
    simp [ElementaryRowOperator.operator_matrix, ElementaryRowOperator.perm_matrix]
  | multiplication k s =>
    simp [ElementaryRowOperator.operator_matrix, ElementaryRowOperator.mult_matrix]
  | axpy s k r =>
    simp [ElementaryRowOperator.operator_matrix, ElementaryRowOperator.axpy_matrix]

lemma perm_matrix_row {n i : ℕ} (a b : ℕ) (hi : i < n) :
    (ElementaryRowOperator.perm_matrix (α := α) a b n).getD i [] =
      ElementaryRowOperator.unit_row n (swap_apply a b i) := by
  unfold ElementaryRowOperator.perm_matrix swap_apply
  rw [getD_map_range, if_pos hi]
  by_cases ha : i = a
  · simp [ha]
  · by_cases hb : i = b
    · simp [ha, hb]
      split <;> rfl
    · simp [ha, hb]

lemma mult_matrix_row {n i : ℕ} (k : ℕ) (s : α) (hi : i < n) :
    (ElementaryRowOperator.mult_matrix (α := α) k s n).getD i [] =
      (List.range n).map (fun j => if j = i then (if i = k then s else 1) else 0) := by
  unfold ElementaryRowOperator.mult_matrix
  rw [getD_map_range, if_pos hi]
  refine List.map_congr_left ?_
  intro j _
  by_cases hj : i = j
  · subst hj
    simp
  · simp [hj, Ne.symm hj]

lemma axpy_matrix_row_other {n i : ℕ} (s : α) (k r : ℕ) (hi : i < n) (hir : i ≠ r) :
    (ElementaryRowOperator.axpy_matrix (α := α) s k r n).getD i [] =
      ElementaryRowOperator.unit_row n i := by
  unfold ElementaryRowOperator.axpy_matrix ElementaryRowOperator.unit_row
  rw [getD_map_range, if_pos hi]
  refine List.map_congr_left ?_
  intro j _
  by_cases hj : i = j
  · subst hj
    simp
  · simp [hj, hir, Ne.symm hj]

lemma axpy_matrix_row_replace {n r : ℕ} (s : α) (k : ℕ) (hr : r < n) (hrk : r ≠ k) :
    (ElementaryRowOperator.axpy_matrix (α := α) s k r n).getD r [] =
      (List.range n).map (fun j => if j = r then 1 else if j = k then s else 0) := by
  unfold ElementaryRowOperator.axpy_matrix
  rw [getD_map_range, if_pos hr]
  refine List.map_congr_left ?_
  intro j _
  by_cases hj : r = j
  · subst hj
    simp
  · by_cases hjk : j = k
    · subst hjk
      simp [hj, Ne.symm hj]
    · simp [hj, Ne.symm hj, hjk]

/-! ### Entrywise action of the three operators -/

lemma entry_zero_col {m : Mat α} {r c : ℕ} (h : WF m r c) {j : ℕ} (hj : c ≤ j)
    (i : ℕ) : entry m i j = 0 := by
  by_cases hi : i < r
  · unfold entry
    exact List.getD_eq_default _ _ (by rw [h.getD_length hi]; exact hj)
  · exact entry_eq_zero_of_le h (not_lt.mp hi)

lemma entry_apply (op : ElementaryRowOperator α) {m : Mat α} {n c i : ℕ} (j : ℕ)
    (hm : WF m n c) (h0 : 0 < n) (hi : i < n) :
    entry (op.apply m) i j =
      if j < c then
        dot ((ElementaryRowOperator.operator_matrix op n).getD i []) (column m j)
      else 0 := by
  unfold ElementaryRowOperator.apply
  rw [hm.n_rows_eq]
  rw [entry_multiply m j (by rw [operator_matrix_length]; exact hi)]
  rw [hm.n_columns_eq h0]

lemma swap_apply_lt {a b i n : ℕ} (ha : a < n) (hb : b < n) (hi : i < n) :
    swap_apply a b i < n := by
  unfold swap_apply
  split
  · exact hb
  split
  · exact ha
  · exact hi

lemma apply_perm_entry {m : Mat α} {n c : ℕ} (hm : WF m n c) (h0 : 0 < n)
    {a b i : ℕ} (ha : a < n) (hb : b < n) (hi : i < n) (j : ℕ) :
    entry ((ElementaryRowOperator.permutation (a, b)).apply m) i j
      = entry m (swap_apply a b i) j := by
  by_cases hj : j < c
  · rw [entry_apply _ j hm h0 hi, if_pos hj]
    rw [show ElementaryRowOperator.operator_matrix
        (ElementaryRowOperator.permutation (α := α) (a, b)) n
        = ElementaryRowOperator.perm_matrix a b n from rfl]
    rw [perm_matrix_row a b hi]
    unfold ElementaryRowOperator.unit_row
    rw [dot_single 1 (by rw [column_length, hm.1]) (swap_apply_lt ha hb hi)]
    rw [one_mul, column_getD]
  · rw [entry_apply _ j hm h0 hi, if_neg hj, entry_zero_col hm (le_of_not_lt hj)]

lemma apply_mult_entry {m : Mat α} {n c : ℕ} (hm : WF m n c) (h0 : 0 < n)
    {k i : ℕ} (s : α) (hi : i < n) (j : ℕ) :
    entry ((ElementaryRowOperator.multiplication k s).apply m) i j
      = (if i = k then s else 1) * entry m i j := by
  by_cases hj : j < c
  · rw [entry_apply _ j hm h0 hi, if_pos hj]
    rw [show ElementaryRowOperator.operator_matrix
        (ElementaryRowOperator.multiplication k s) n
        = ElementaryRowOperator.mult_matrix k s n from rfl]
    rw [mult_matrix_row k s hi]
    rw [dot_single _ (by rw [column_length, hm.1]) hi, column_getD]
  · rw [entry_apply _ j hm h0 hi, if_neg hj, entry_zero_col hm (le_of_not_lt hj), mul_zero]

lemma apply_axpy_entry {m : Mat α} {n c : ℕ} (hm : WF m n c) (h0 : 0 < n)
    {k r i : ℕ} (s : α) (hk : k < n) (hrk : r ≠ k) (hi : i < n) (j : ℕ) :
    entry ((ElementaryRowOperator.axpy s k r).apply m) i j
      = if i = r then entry m i j + s * entry m k j else entry m i j := by
  by_cases hj : j < c
  · rw [entry_apply _ j hm h0 hi, if_pos hj]
    rw [show ElementaryRowOperator.operator_matrix
        (ElementaryRowOperator.axpy s k r) n
        = ElementaryRowOperator.axpy_matrix s k r n from rfl]
    by_cases hir : i = r
    · subst hir
      rw [axpy_matrix_row_replace s k hi hrk]
      rw [dot_double 1 s (by rw [column_length, hm.1]) hi hk hrk]
      rw [one_mul, column_getD, column_getD, if_pos rfl]
    · rw [axpy_matrix_row_other s k r hi hir]
      unfold ElementaryRowOperator.unit_row
      rw [dot_single 1 (by rw [column_length, hm.1]) hi, one_mul, column_getD, if_neg hir]
  · rw [entry_apply _ j hm h0 hi, if_neg hj]
    rw [entry_zero_col hm (le_of_not_lt hj), entry_zero_col hm (le_of_not_lt hj)]
    simp

lemma WF_apply {m : Mat α} {n c : ℕ} (hm : WF m n c) (h0 : 0 < n)
    (op : ElementaryRowOperator α) : WF (op.apply m) n c := by
  unfold ElementaryRowOperator.apply
  rw [hm.n_rows_eq]
  have h := WF_multiply (ElementaryRowOperator.operator_matrix op n) m
  rwa [operator_matrix_length, hm.n_columns_eq h0] at h

lemma WF_apply_operators {n c : ℕ} (h0 : 0 < n)
    (ops : List (ElementaryRowOperator α)) :
    ∀ {m : Mat α}, WF m n c → WF (apply_operators m ops) n c := by
  induction ops with
  | nil => intro m hm; exact hm
  | cons op rest ih =>
    intro m hm
    exact ih (WF_apply hm h0 op)


/-! ### Composition of an operator with its inverse -/

lemma swap_apply_involutive (a b i : ℕ) : swap_apply a b (swap_apply a b i) = i := by
  unfold swap_apply
  by_cases hia : i = a
  · by_cases hba : b = a
    · simp [hia, hba]
    · simp [hia, hba]
  · by_cases hib : i = b
    · simp [hia, hib]
    · simp [hia, hib]

lemma perm_apply_perm_apply {m : Mat α} {n c : ℕ} (hm : WF m n c) (h0 : 0 < n)
    {a b : ℕ} (ha : a < n) (hb : b < n) :
    (ElementaryRowOperator.permutation (a, b)).apply
      ((ElementaryRowOperator.permutation (a, b)).apply m) = m := by
  refine Mat_ext (WF_apply (WF_apply hm h0 _) h0 _) hm ?_
  intro i hi j hj
  rw [apply_perm_entry (WF_apply hm h0 _) h0 ha hb hi j,
    apply_perm_entry hm h0 ha hb (swap_apply_lt ha hb hi) j,
    swap_apply_involutive]

lemma mult_apply_mult_apply {m : Mat α} {n c : ℕ} (hm : WF m n c) (h0 : 0 < n)
    {k : ℕ} {s s' : α} (hss : s' * s = 1) :
    (ElementaryRowOperator.multiplication k s').apply
      ((ElementaryRowOperator.multiplication k s).apply m) = m := by
  refine Mat_ext (WF_apply (WF_apply hm h0 _) h0 _) hm ?_
  intro i hi j hj
  rw [apply_mult_entry (WF_apply hm h0 _) h0 s' hi j, apply_mult_entry hm h0 s hi j]
  by_cases hik : i = k
  · rw [if_pos hik, if_pos hik, ← mul_assoc, hss, one_mul]
  · rw [if_neg hik, if_neg hik, one_mul, one_mul]

lemma axpy_apply_axpy_apply {m : Mat α} {n c : ℕ} (hm : WF m n c) (h0 : 0 < n)
    {k r : ℕ} {s s' : α} (hk : k < n) (hr : r < n) (hrk : r ≠ k) (hss : s' + s = 0) :
    (ElementaryRowOperator.axpy s' k r).apply
      ((ElementaryRowOperator.axpy s k r).apply m) = m := by
  refine Mat_ext (WF_apply (WF_apply hm h0 _) h0 _) hm ?_
  intro i hi j hj
  rw [apply_axpy_entry (WF_apply hm h0 _) h0 s' hk hrk hi j]
  by_cases hir : i = r
  · rw [if_pos hir,
      apply_axpy_entry hm h0 s hk hrk hi j, if_pos hir,
      apply_axpy_entry hm h0 s hk hrk hk j, if_neg (Ne.symm hrk)]
    linear_combination entry m k j * hss
  · rw [if_neg hir, apply_axpy_entry hm h0 s hk hrk hi j, if_neg hir]

lemma inverted_apply_apply {m : Mat α} {n c : ℕ} (hm : WF m n c) (h0 : 0 < n)
    {op : ElementaryRowOperator α} (hop : OpValid n op) :
    op.inverted.apply (op.apply m) = m := by
  cases op with
  | permutation p =>
    obtain ⟨a, b⟩ := p
    obtain ⟨ha, hb⟩ := hop
    exact perm_apply_perm_apply hm h0 ha hb
  | multiplication k s =>
    obtain ⟨hk, hs⟩ := hop
    exact mult_apply_mult_apply hm h0 (one_div_mul_cancel hs)
  | axpy s k r =>
    obtain ⟨hk, hr, hrk⟩ := hop
    exact axpy_apply_axpy_apply hm h0 hk hr hrk (by ring)

lemma apply_inverted_apply {m : Mat α} {n c : ℕ} (hm : WF m n c) (h0 : 0 < n)
    {op : ElementaryRowOperator α} (hop : OpValid n op) :
    op.apply (op.inverted.apply m) = m := by
  cases op with
  | permutation p =>
    obtain ⟨a, b⟩ := p
    obtain ⟨ha, hb⟩ := hop
    exact perm_apply_perm_apply hm h0 ha hb
  | multiplication k s =>
    obtain ⟨hk, hs⟩ := hop
    exact mult_apply_mult_apply hm h0 (mul_one_div_cancel hs)
  | axpy s k r =>
    obtain ⟨hk, hr, hrk⟩ := hop
    exact axpy_apply_axpy_apply hm h0 hk hr hrk (by ring)

lemma apply_inj {n c : ℕ} {m₁ m₂ : Mat α} (h₁ : WF m₁ n c) (h₂ : WF m₂ n c)
    (h0 : 0 < n) {op : ElementaryRowOperator α} (hop : OpValid n op)
    (h : op.apply m₁ = op.apply m₂) : m₁ = m₂ := by
  have e₁ := inverted_apply_apply h₁ h0 hop
  have e₂ := inverted_apply_apply h₂ h0 hop
  rw [← e₁, ← e₂, h]

lemma apply_operators_inj {n c : ℕ} (h0 : 0 < n)
    (ops : List (ElementaryRowOperator α)) (hops : ∀ op ∈ ops, OpValid n op) :
    ∀ {m₁ m₂ : Mat α}, WF m₁ n c → WF m₂ n c →
      apply_operators m₁ ops = apply_operators m₂ ops → m₁ = m₂ := by
  induction ops with
  | nil =>
    intro m₁ m₂ _ _ h
    exact h
  | cons op rest ih =>
    intro m₁ m₂ h₁ h₂ h
    have hrest := ih (fun o ho => hops o (List.mem_cons_of_mem _ ho))
      (WF_apply h₁ h0 op) (WF_apply h₂ h0 op) h
    exact apply_inj h₁ h₂ h0 (hops op (List.mem_cons_self op rest)) hrest

/-! ### The identity matrix -/

lemma WF_identity (n : ℕ) : WF (identity_matrix (α := α) n) n n := by
  constructor
  · simp [identity_matrix]
  · intro row h
    simp only [identity_matrix, List.mem_map] at h
    obtain ⟨i, _, rfl⟩ := h
    simp

lemma entry_identity {n i : ℕ} (j : ℕ) (hi : i < n) :
    entry (identity_matrix (α := α) n) i j = if i = j then 1 else 0 := by
  unfold identity_matrix entry
  rw [getD_map_range, if_pos hi, getD_map_range]
  by_cases hj : j < n
  · rw [if_pos hj]
  · rw [if_neg hj, if_neg (by omega)]

/-! ### Bridge to Mathlib matrices -/

lemma entry_multiply_sum {a b : Mat α} {ra m cb : ℕ} (ha : WF a ra m) (hb : WF b m cb)
    (h0m : 0 < m) {i j : ℕ} (hi : i < ra) (hj : j < cb) :
    entry (multiply a b) i j = ∑ t ∈ Finset.range m, entry a i t * entry b t j := by
  rw [entry_multiply b j (by rw [ha.1]; exact hi)]
  rw [if_pos (by rw [hb.n_columns_eq h0m]; exact hj)]
  rw [dot_eq_sum]
  rw [ha.getD_length hi, column_length, hb.1, min_self]
  refine Finset.sum_congr rfl ?_
  intro t _
  rw [column_getD]
  rfl

lemma toM_multiply {a b : Mat α} {ra m cb : ℕ} (ha : WF a ra m) (hb : WF b m cb)
    (h0m : 0 < m) : toM ra cb (multiply a b) = toM ra m a * toM m cb b := by
  ext i j
  rw [Matrix.mul_apply]
  show entry (multiply a b) (i : ℕ) (j : ℕ) = _
  rw [entry_multiply_sum ha hb h0m i.isLt j.isLt]
  rw [← Fin.sum_univ_eq_sum_range (fun t => entry a (i : ℕ) t * entry b t (j : ℕ)) m]
  rfl

lemma toM_inj {A B : Mat α} {r c : ℕ} (hA : WF A r c) (hB : WF B r c)
    (h : toM r c A = toM r c B) : A = B := by
  refine Mat_ext hA hB ?_
  intro i hi j hj
  have h2 : toM r c A ⟨i, hi⟩ ⟨j, hj⟩ = toM r c B ⟨i, hi⟩ ⟨j, hj⟩ := by rw [h]
  exact h2

lemma toM_identity (n : ℕ) : toM n n (identity_matrix (α := α) n) = 1 := by
  ext i j
  show entry (identity_matrix (α := α) n) (i : ℕ) (j : ℕ) = _
  rw [entry_identity _ i.isLt, Matrix.one_apply]
  by_cases hij : i = j
  · rw [if_pos (congrArg Fin.val hij), if_pos hij]
  · rw [if_neg (fun hc => hij (Fin.ext hc)), if_neg hij]

lemma multiply_assoc {A B C : Mat α} {r m c d : ℕ} (hA : WF A r m) (hB : WF B m c)
    (hC : WF C c d) (h0m : 0 < m) (h0c : 0 < c) :
    multiply (multiply A B) C = multiply A (multiply B C) := by
  have hAB : WF (multiply A B) r c := by
    have h := WF_multiply A B
    rwa [hA.1, hB.n_columns_eq h0m] at h
  have hBC : WF (multiply B C) m d := by
    have h := WF_multiply B C
    rwa [hB.1, hC.n_columns_eq h0c] at h
  have hABC : WF (multiply (multiply A B) C) r d := by
    have h := WF_multiply (multiply A B) C
    rwa [hAB.1, hC.n_columns_eq h0c] at h
  have hABC' : WF (multiply A (multiply B C)) r d := by
    have h := WF_multiply A (multiply B C)
    rwa [hA.1, hBC.n_columns_eq h0m] at h
  refine toM_inj hABC hABC' ?_
  rw [toM_multiply hAB hC h0c, toM_multiply hA hB h0m,
    toM_multiply hA hBC h0m, toM_multiply hB hC h0c, Matrix.mul_assoc]

lemma WF_operator_matrix (op : ElementaryRowOperator α) (n : ℕ) :
    WF (ElementaryRowOperator.operator_matrix op n) n n := by
  refine ⟨operator_matrix_length op n, ?_⟩
  intro row hrow
  cases op with
  | permutation p =>
    obtain ⟨a, b⟩ := p
    simp only [ElementaryRowOperator.operator_matrix, ElementaryRowOperator.perm_matrix,
      List.mem_map] at hrow
    obtain ⟨i, _, rfl⟩ := hrow
    split
    · simp [ElementaryRowOperator.unit_row]
    split
    · simp [ElementaryRowOperator.unit_row]
    · simp [ElementaryRowOperator.unit_row]
  | multiplication k s =>
    simp only [ElementaryRowOperator.operator_matrix, ElementaryRowOperator.mult_matrix,
      List.mem_map] at hrow
    obtain ⟨i, _, rfl⟩ := hrow
    simp
  | axpy s k r =>
    simp only [ElementaryRowOperator.operator_matrix, ElementaryRowOperator.axpy_matrix,
      List.mem_map] at hrow
    obtain ⟨i, _, rfl⟩ := hrow
    simp

lemma apply_multiply_comm {m Z : Mat α} {n c : ℕ} (hm : WF m n n) (hZ : WF Z n c)
    (h0 : 0 < n) (h0c : 0 < c) (op : ElementaryRowOperator α) :
    op.apply (multiply m Z) = multiply (op.apply m) Z := by
  unfold ElementaryRowOperator.apply
  rw [show n_rows (multiply m Z) = n from by
    rw [n_rows, length_multiply, hm.1]]
  rw [hm.n_rows_eq]
  exact (multiply_assoc (WF_operator_matrix op n) hm hZ h0 h0).symm

lemma apply_operators_append (m : Mat α) (xs ys : List (ElementaryRowOperator α)) :
    apply_operators m (xs ++ ys) = apply_operators (apply_operators m xs) ys := by
  induction xs generalizing m with
  | nil => rfl
  | cons op rest ih => simp [apply_operators, ih]

lemma apply_operators_multiply {n c : ℕ} (h0 : 0 < n) (h0c : 0 < c)
    (ops : List (ElementaryRowOperator α)) :
    ∀ {m Z : Mat α}, WF m n n → WF Z n c →
      apply_operators (multiply m Z) ops = multiply (apply_operators m ops) Z := by
  induction ops with
  | nil =>
    intro m Z _ _
    rfl
  | cons op rest ih =>
    intro m Z hm hZ
    show apply_operators (op.apply (multiply m Z)) rest
      = multiply (apply_operators (op.apply m) rest) Z
    rw [apply_multiply_comm hm hZ h0 h0c op]
    exact ih (WF_apply hm h0 op) hZ

lemma identity_multiply {X : Mat α} {n c : ℕ} (hX : WF X n c) (h0 : 0 < n)
    (h0c : 0 < c) : multiply (identity_matrix n) X = X := by
  have hI : WF (multiply (identity_matrix (α := α) n) X) n c := by
    have h := WF_multiply (identity_matrix (α := α) n) X
    rwa [(WF_identity n).1, hX.n_columns_eq h0] at h
  refine Mat_ext hI hX ?_
  intro i hi j hj
  rw [entry_multiply_sum (WF_identity n) hX h0 hi hj]
  have step : ∀ t ∈ Finset.range n,
      entry (identity_matrix (α := α) n) i t * entry X t j
        = if t = i then entry X t j else 0 := by
    intro t _
    rw [entry_identity t hi]
    by_cases h' : i = t
    · subst h'
      simp
    · rw [if_neg h', if_neg (Ne.symm h'), zero_mul]
  rw [Finset.sum_congr rfl step, Finset.sum_ite_eq' (Finset.range n) i,
    if_pos (Finset.mem_range.mpr hi)]


/-! ### The partial pivot -/

lemma tolerance_pos : (0 : α) < tolerance := by
  unfold tolerance
  norm_num

lemma ne_zero_of_tolerance_lt {x : α} (h : tolerance < |x|) : x ≠ 0 := by
  intro h0
  rw [h0, abs_zero] at h
  exact absurd h (not_lt.mpr tolerance_pos.le)

lemma pivot_search_ok {m : Mat α} {index : ℕ} :
    ∀ {l : List ℕ} {op}, pivot_search m index l = .ok op →
      ∃ f ∈ l, op = ElementaryRowOperator.permutation (index, f) ∧
        tolerance < |entry m f index| := by
  intro l
  induction l with
  | nil =>
    intro op h
    exact absurd h (by simp [pivot_search])
  | cons r rest ih =>
    intro op h
    rw [pivot_search] at h
    by_cases hr : tolerance < |entry m r index|
    · rw [if_pos hr] at h
      injection h with h
      exact ⟨r, List.mem_cons_self r rest, h.symm, hr⟩
    · rw [if_neg hr] at h
      obtain ⟨f, hf, h1, h2⟩ := ih h
      exact ⟨f, List.mem_cons_of_mem _ hf, h1, h2⟩

lemma swap_apply_self_left (a i : ℕ) : swap_apply a a i = i := by
  unfold swap_apply
  by_cases h : i = a
  · simp [h]
  · simp [h]

lemma swap_apply_left (a b : ℕ) : swap_apply a b a = b := by
  unfold swap_apply
  simp

lemma partial_pivot_ok {m : Mat α} {n j : ℕ} (hm : WF m n n) (h0 : 0 < n)
    (hj : j < n) {op} (h : partial_pivot_operator m j = .ok op) :
    (∃ a b, op = ElementaryRowOperator.permutation (a, b) ∧ a < n ∧ b < n ∧
      (a = b ∨ (j ≤ a ∧ j ≤ b))) ∧
      tolerance < |entry (op.apply m) j j| := by
  unfold partial_pivot_operator at h
  by_cases hd : tolerance < |entry m j j|
  · rw [if_pos hd] at h
    injection h with h
    subst h
    refine ⟨⟨0, 0, rfl, h0, h0, Or.inl rfl⟩, ?_⟩
    rw [apply_perm_entry hm h0 h0 h0 hj j, swap_apply_self_left]
    exact hd
  · rw [if_neg hd] at h
    obtain ⟨f, hfmem, rfl, hf⟩ := pivot_search_ok h
    have hfr : j ≤ f ∧ f < j + (n_rows m - j) := List.mem_range'_1.mp hfmem
    have hfn : f < n := by
      have := hfr.2
      rw [hm.n_rows_eq] at this
      omega
    refine ⟨⟨j, f, rfl, hj, hfn, Or.inr ⟨le_refl j, hfr.1⟩⟩, ?_⟩
    rw [apply_perm_entry hm h0 hj hfn hj j, swap_apply_left]
    exact hf

lemma colsFixed_apply_perm {m : Mat α} {n j a b : ℕ} (hm : WF m n n) (h0 : 0 < n)
    (ha : a < n) (hb : b < n) (hcase : a = b ∨ (j ≤ a ∧ j ≤ b))
    (hfix : ColsFixed m n j) :
    ColsFixed ((ElementaryRowOperator.permutation (a, b)).apply m) n j := by
  intro c hc i hi
  rw [apply_perm_entry hm h0 ha hb hi c]
  have hsw : swap_apply a b i < n := swap_apply_lt ha hb hi
  rw [hfix c hc _ hsw]
  rcases hcase with heq | ⟨hja, hjb⟩
  · rw [heq, swap_apply_self_left]
  · unfold swap_apply
    by_cases hia : i = a
    · rw [if_pos hia, if_neg (by omega), if_neg (by omega)]
    · rw [if_neg hia]
      by_cases hib : i = b
      · rw [if_pos hib, if_neg (by omega), if_neg (by omega)]
      · rw [if_neg hib]

/-! ### One column step -/

lemma apply_axpys_entry {n c j : ℕ} (h0 : 0 < n) (hj : j < n) (f : ℕ → α) :
    ∀ (rs : List ℕ) {M : Mat α}, WF M n c → rs.Nodup →
      (∀ r ∈ rs, r < n ∧ r ≠ j) →
      ∀ i, i < n → ∀ jc,
        entry (apply_operators M
            (rs.map (fun r => ElementaryRowOperator.axpy (f r) j r))) i jc
          = if i ∈ rs then entry M i jc + f i * entry M j jc else entry M i jc := by
  intro rs
  induction rs with
  | nil =>
    intro M hM _ _ i hi jc
    simp [apply_operators]
  | cons r rest ih =>
    intro M hM hnd hmem i hi jc
    have hr := hmem r (List.mem_cons_self r rest)
    have hM' : WF ((ElementaryRowOperator.axpy (f r) j r).apply M) n c :=
      WF_apply hM h0 _
    show entry (apply_operators ((ElementaryRowOperator.axpy (f r) j r).apply M)
      (rest.map (fun r => ElementaryRowOperator.axpy (f r) j r))) i jc = _
    rw [ih hM' hnd.of_cons (fun x hx => hmem x (List.mem_cons_of_mem _ hx)) i hi jc]
    have hjr : ¬ j = r := fun hcon => hr.2 hcon.symm
    by_cases hir : i ∈ rest
    · rw [if_pos hir, if_pos (List.mem_cons_of_mem _ hir)]
      have hine : ¬ i = r := by
        intro hcon
        rw [hcon] at hir
        exact (List.nodup_cons.mp hnd).1 hir
      rw [apply_axpy_entry hM h0 (f r) hj hr.2 hi jc, if_neg hine,
        apply_axpy_entry hM h0 (f r) hj hr.2 hj jc, if_neg hjr]
    · rw [if_neg hir]
      by_cases hirr : i = r
      · rw [if_pos (by rw [hirr]; exact List.mem_cons_self r rest)]
        rw [apply_axpy_entry hM h0 (f r) hj hr.2 hi jc, if_pos hirr, hirr]
      · rw [if_neg (by simp [hirr, hir]),
          apply_axpy_entry hM h0 (f r) hj hr.2 hi jc, if_neg hirr]

lemma mem_filter_range {n j r : ℕ} :
    r ∈ (List.range n).filter (fun r => decide (r ≠ j)) ↔ r < n ∧ r ≠ j := by
  simp [List.mem_filter]

/-- Entry description of the full column step applied to a pivoted matrix:
the scaling, then the axpys (whose scalars were read from the unscaled
matrix). -/
lemma code_column_step_entry {m : Mat α} {n j : ℕ} (hm : WF m n n) (h0 : 0 < n)
    (hj : j < n) {i : ℕ} (hi : i < n) (jc : ℕ) :
    entry (apply_operators m (diagonal_scaling_operator m j ::
        non_diagonal_zeroing_operators m j)) i jc
      = if i = j then (1 / entry m j j) * entry m j jc
        else entry m i jc + (-1 * entry m i j) * ((1 / entry m j j) * entry m j jc) := by
  have hscaled : WF ((diagonal_scaling_operator m j).apply m) n n :=
    WF_apply hm h0 _
  show entry (apply_operators ((diagonal_scaling_operator m j).apply m)
    (non_diagonal_zeroing_operators m j)) i jc = _
  unfold non_diagonal_zeroing_operators
  rw [hm.n_rows_eq]
  rw [apply_axpys_entry h0 hj (fun r => -1 * entry m r j)
    ((List.range n).filter (fun r => decide (r ≠ j))) hscaled
    ((List.nodup_range n).filter _)
    (fun r hr => mem_filter_range.mp hr) i hi jc]
  unfold diagonal_scaling_operator
  by_cases hij : i = j
  · rw [if_neg (by rw [mem_filter_range]; exact fun hcon => hcon.2 hij)]
    rw [apply_mult_entry hm h0 _ hi jc, if_pos hij, hij, if_pos rfl]
  · rw [if_pos (mem_filter_range.mpr ⟨hi, hij⟩)]
    rw [apply_mult_entry hm h0 _ hi jc, if_neg hij, one_mul,
      apply_mult_entry hm h0 _ hj jc, if_pos rfl, if_neg hij]

lemma colsFixed_column_step {m : Mat α} {n j : ℕ} (hm : WF m n n) (h0 : 0 < n)
    (hj : j < n) (hfix : ColsFixed m n j) (hp : tolerance < |entry m j j|) :
    ColsFixed (apply_operators m (diagonal_scaling_operator m j ::
      non_diagonal_zeroing_operators m j)) n (j + 1) := by
  have hpne : entry m j j ≠ 0 := ne_zero_of_tolerance_lt hp
  intro c hc i hi
  rw [code_column_step_entry hm h0 hj hi c]
  by_cases hcj : c = j
  · subst hcj
    by_cases hij : i = c
    · rw [if_pos hij, if_pos hij, one_div_mul_cancel hpne]
    · rw [if_neg hij, if_neg hij, one_div_mul_cancel hpne, mul_one]
      ring
  · have hcj' : c < j := by omega
    have hjc : ¬ j = c := fun hcon => hcj hcon.symm
    by_cases hij : i = j
    · rw [if_pos hij, hfix c hcj' j hj, if_neg hjc, mul_zero, if_neg (by omega)]
    · rw [if_neg hij, hfix c hcj' i hi, hfix c hcj' j hj, if_neg hjc,
        mul_zero, mul_zero, add_zero]


lemma colsFixed_eq_identity {m : Mat α} {n : ℕ} (hm : WF m n n)
    (hfix : ColsFixed m n n) : m = identity_matrix n := by
  refine Mat_ext hm (WF_identity n) ?_
  intro i hi j hj
  rw [entry_identity j hi]
  exact hfix j hj i hi

lemma column_operators_valid {m : Mat α} {n j : ℕ} (hm : WF m n n) (hj : j < n)
    (hp : tolerance < |entry m j j|) :
    ∀ op ∈ (diagonal_scaling_operator m j :: non_diagonal_zeroing_operators m j),
      OpValid n op := by
  intro op hop
  rcases List.mem_cons.mp hop with rfl | hop
  · exact ⟨hj, one_div_ne_zero (ne_zero_of_tolerance_lt hp)⟩
  · unfold non_diagonal_zeroing_operators at hop
    rw [hm.n_rows_eq] at hop
    obtain ⟨r, hr, rfl⟩ := List.mem_map.mp hop
    obtain ⟨hrn, hrj⟩ := mem_filter_range.mp hr
    exact ⟨hj, hrn, hrj⟩

lemma column_axpys_are_axpy {m : Mat α} {j : ℕ} :
    ∀ a ∈ non_diagonal_zeroing_operators m j, IsAxpy a := by
  intro a ha
  unfold non_diagonal_zeroing_operators at ha
  obtain ⟨r, _, rfl⟩ := List.mem_map.mp ha
  trivial

/-- The master induction on `_operate_on_one_column`: on success from a state
whose earlier columns are already identity columns, the returned trace `tail`
extends the accumulator, the returned matrix is the trace applied to the
running result, the trace reduces the running `m` to the identity, every
emitted operator is valid, every scaling scalar is the reciprocal of an
above-tolerance pivot, and the trace splits into per-column blocks. -/
lemma operate_spec {n c : ℕ} (h0 : 0 < n) (h0c : 0 < c) :
    ∀ (fuel : ℕ) {m result X : Mat α} {j : ℕ}
      {acc ops : List (ElementaryRowOperator α)},
      WF m n n → WF result n c → j ≤ n → n ≤ j + fuel → ColsFixed m n j →
      operate_on_one_column fuel m j result acc = .ok (X, ops) →
      ∃ tail,
        ops = acc ++ tail ∧
        X = apply_operators result tail ∧
        apply_operators m tail = identity_matrix n ∧
        WF X n c ∧
        (∀ op ∈ tail, OpValid n op) ∧
        (∀ k s, ElementaryRowOperator.multiplication k s ∈ tail →
          ∃ piv : α, tolerance < |piv| ∧ s = 1 / piv) ∧
        BlockShaped (n - j) tail := by
  intro fuel
  induction fuel with
  | zero =>
    intro m result X j acc ops hm hres hjn hnj hfix h
    have hj : j = n := by omega
    subst hj
    rw [operate_on_one_column, hm.n_columns_eq h0, if_pos rfl] at h
    injection h with hpair
    have hX : X = result := (congrArg Prod.fst hpair).symm
    have hops : ops = acc := (congrArg Prod.snd hpair).symm
    subst hX
    subst hops
    exact ⟨[], by simp, rfl, colsFixed_eq_identity hm hfix, hres, by simp,
      by simp, ⟨[], by simp, by simp, by simp⟩⟩
  | succ fuel ih =>
    intro m result X j acc ops hm hres hjn hnj hfix h
    rw [operate_on_one_column, hm.n_columns_eq h0] at h
    by_cases hterm : n = j
    · rw [if_pos hterm] at h
      have hj : j = n := hterm.symm
      subst hj
      injection h with hpair
      have hX : X = result := (congrArg Prod.fst hpair).symm
      have hops : ops = acc := (congrArg Prod.snd hpair).symm
      subst hX
      subst hops
      exact ⟨[], by simp, rfl, colsFixed_eq_identity hm hfix, hres, by simp,
        by simp, ⟨[], by simp, by simp, by simp⟩⟩
    · rw [if_neg hterm] at h
      have hj : j < n := by omega
      cases hpiv : partial_pivot_operator m j with
      | error e =>
        rw [hpiv] at h
        exact absurd h (by simp)
      | ok pop =>
        rw [hpiv] at h
        obtain ⟨⟨a, b, rfl, ha, hb, hcase⟩, hp⟩ := partial_pivot_ok hm h0 hj hpiv
        dsimp only at h
        set pivoted := (ElementaryRowOperator.permutation (a, b)).apply m
          with hpivoted_def
        have hpivotedWF : WF pivoted n n := WF_apply hm h0 _
        have hfix1 : ColsFixed pivoted n j :=
          colsFixed_apply_perm hm h0 ha hb hcase hfix
        have hm2 : WF (apply_operators pivoted (diagonal_scaling_operator pivoted j ::
            non_diagonal_zeroing_operators pivoted j)) n n :=
          WF_apply_operators h0 _ hpivotedWF
        have hres2 : WF (apply_operators
            ((ElementaryRowOperator.permutation (a, b)).apply result)
            (diagonal_scaling_operator pivoted j ::
              non_diagonal_zeroing_operators pivoted j)) n c :=
          WF_apply_operators h0 _ (WF_apply hres h0 _)
        have hfix2 : ColsFixed (apply_operators pivoted
            (diagonal_scaling_operator pivoted j ::
              non_diagonal_zeroing_operators pivoted j)) n (j + 1) :=
          colsFixed_column_step hpivotedWF h0 hj hfix1 hp
        obtain ⟨tail, htail_ops, htail_X, htail_id, hXwf, htail_valid,
            htail_mult, htail_blocks⟩ :=
          ih hm2 hres2 (by omega) (by omega) hfix2 h
        refine ⟨(ElementaryRowOperator.permutation (a, b) ::
          (diagonal_scaling_operator pivoted j ::
            non_diagonal_zeroing_operators pivoted j)) ++ tail,
          ?_, ?_, ?_, hXwf, ?_, ?_, ?_⟩
        · rw [htail_ops]
          simp
        · rw [htail_X, apply_operators_append]
          rfl
        · rw [apply_operators_append]
          exact htail_id
        · intro op hop
          rcases List.mem_append.mp hop with hop | hop
          · rcases List.mem_cons.mp hop with rfl | hop
            · exact ⟨ha, hb⟩
            · exact column_operators_valid hpivotedWF hj hp op hop
          · exact htail_valid op hop
        · intro k s hmem
          rcases List.mem_append.mp hmem with hmem | hmem
          · rcases List.mem_cons.mp hmem with heq | hmem
            · exact absurd heq (by simp)
            · rcases List.mem_cons.mp hmem with heq | hmem
              · unfold diagonal_scaling_operator at heq
                injection heq with heq1 heq2
                exact ⟨entry pivoted j j, hp, heq2⟩
              · exact absurd (column_axpys_are_axpy _ hmem) (by simp [IsAxpy])
          · exact htail_mult k s hmem
        · obtain ⟨blocks, hbl1, hbl2, hbl3⟩ := htail_blocks
          refine ⟨(ElementaryRowOperator.permutation (a, b) ::
            (diagonal_scaling_operator pivoted j ::
              non_diagonal_zeroing_operators pivoted j)) :: blocks, ?_, ?_, ?_⟩
          · rw [hbl1]
            simp
          · simp only [List.length_cons, hbl2]
            omega
          · intro bb hbb
            rcases List.mem_cons.mp hbb with rfl | hbb
            · exact ⟨(a, b), j, 1 / entry pivoted j j,
                non_diagonal_zeroing_operators pivoted j, rfl,
                ⟨entry pivoted j j, hp, rfl⟩, column_axpys_are_axpy⟩
            · exact hbl3 bb hbb


/-! ### Correctness of `solve` -/

lemma solve_spec {n c : ℕ} {A Y X : Mat α} {ops : List (ElementaryRowOperator α)}
    (hA : WF A n n) (hY : WF Y n c) (h0 : 0 < n) (h0c : 0 < c)
    (h : solve A Y = .ok (X, ops)) :
    X = apply_operators Y ops ∧
    apply_operators A ops = identity_matrix n ∧
    WF X n c ∧
    (∀ op ∈ ops, OpValid n op) ∧
    (∀ k s, ElementaryRowOperator.multiplication k s ∈ ops →
      ∃ piv : α, tolerance < |piv| ∧ s = 1 / piv) ∧
    BlockShaped n ops := by
  unfold solve at h
  rw [hA.n_columns_eq h0] at h
  obtain ⟨tail, h1, h2, h3, h4, h5, h6, h7⟩ :=
    operate_spec h0 h0c n hA hY (Nat.zero_le n) (by omega)
      (fun c hc => absurd hc (Nat.not_lt_zero c)) h
  simp only [List.nil_append] at h1
  subst h1
  exact ⟨h2, h3, h4, h5, h6, by simpa using h7⟩

lemma solve_mul_eq {n c : ℕ} {A Y X : Mat α} {ops : List (ElementaryRowOperator α)}
    (hA : WF A n n) (hY : WF Y n c) (h0 : 0 < n) (h0c : 0 < c)
    (h : solve A Y = .ok (X, ops)) : multiply A X = Y := by
  obtain ⟨hX, hid, hXwf, hvalid, _, _⟩ := solve_spec hA hY h0 h0c h
  have hAX : WF (multiply A X) n c := by
    have h' := WF_multiply A X
    rwa [hA.1, hXwf.n_columns_eq h0] at h'
  refine apply_operators_inj h0 ops hvalid hAX hY ?_
  rw [apply_operators_multiply h0 h0c ops hA hXwf, hid,
    identity_multiply hXwf h0 h0c]
  exact hX

/-- **C1.**  If `solve(A, Y)` returns `(X, trace)` without raising then, over
exact arithmetic, applying the trace operators in order to `A` yields the
identity matrix and applying them in the same order to `Y` yields `X`, so
`A·X = Y`; and the trace is the concatenation, in application order, of one
block per column consisting of the pivot permutation, then the scaling, then
the axpy-replace operators. -/
theorem C1_solve_correct {α : Type} [inst : LinearOrderedField α] {n c : ℕ}
    {A Y X : Mat α} {ops : List (ElementaryRowOperator α)}
    (hA : WF A n n) (hY : WF Y n c) (h0 : 0 < n) (h0c : 0 < c)
    (h : solve A Y = .ok (X, ops)) :
    apply_operators A ops = identity_matrix n ∧
    apply_operators Y ops = X ∧
    multiply A X = Y ∧
    BlockShaped n ops := by
  obtain ⟨hX, hid, hXwf, hvalid, _, hblocks⟩ := solve_spec hA hY h0 h0c h
  exact ⟨hid, hX.symm, solve_mul_eq hA hY h0 h0c h, hblocks⟩

/-- Witness for C1 on the spec's concrete scenario
`solve([[2,3],[1,-1]], [[6],[0.5]])`. -/
theorem C1_solve_correct_witness :
    solve ([[2, 3], [1, -1]] : Mat ℚ) [[6], [1/2]] =
      .ok ([[3/2], [1]],
        [.permutation (0, 0), .multiplication 0 (1/2), .axpy (-1) 0 1,
         .permutation (0, 0), .multiplication 1 (-(2/5)), .axpy (-(3/2)) 1 0]) ∧
    (apply_operators ([[2, 3], [1, -1]] : Mat ℚ)
        [.permutation (0, 0), .multiplication 0 (1/2), .axpy (-1) 0 1,
         .permutation (0, 0), .multiplication 1 (-(2/5)), .axpy (-(3/2)) 1 0]
      = identity_matrix 2 ∧
    apply_operators ([[6], [1/2]] : Mat ℚ)
        [.permutation (0, 0), .multiplication 0 (1/2), .axpy (-1) 0 1,
         .permutation (0, 0), .multiplication 1 (-(2/5)), .axpy (-(3/2)) 1 0]
      = [[3/2], [1]] ∧
    multiply ([[2, 3], [1, -1]] : Mat ℚ) [[3/2], [1]] = [[6], [1/2]] ∧
    BlockShaped 2
        ([.permutation (0, 0), .multiplication 0 (1/2), .axpy (-1) 0 1,
          .permutation (0, 0), .multiplication 1 (-(2/5)), .axpy (-(3/2)) 1 0] :
          List (ElementaryRowOperator ℚ))) := by
  have hsolve : solve ([[2, 3], [1, -1]] : Mat ℚ) [[6], [1/2]] =
      .ok ([[3/2], [1]],
        [.permutation (0, 0), .multiplication 0 (1/2), .axpy (-1) 0 1,
         .permutation (0, 0), .multiplication 1 (-(2/5)), .axpy (-(3/2)) 1 0]) := by
    norm_num [solve, operate_on_one_column, partial_pivot_operator,
      pivot_search, non_diagonal_zeroing_operators, diagonal_scaling_operator, tolerance,
      entry, n_rows, n_columns, ElementaryRowOperator.apply,
      ElementaryRowOperator.operator_matrix, ElementaryRowOperator.perm_matrix,
      ElementaryRowOperator.mult_matrix, ElementaryRowOperator.axpy_matrix,
      ElementaryRowOperator.unit_row, apply_operators, multiply, columns, column,
      dot, identity_matrix, List.range_succ, List.range', Function.comp,
      abs_of_nonneg, abs_of_nonpos]
  have hA : WF ([[2, 3], [1, -1]] : Mat ℚ) 2 2 := ⟨rfl, by decide⟩
  have hY : WF ([[6], [1/2]] : Mat ℚ) 2 1 := ⟨rfl, by decide⟩
  exact ⟨hsolve, C1_solve_correct hA hY (by norm_num) (by norm_num) hsolve⟩


/-- **C4.**  Every elementary row operator composed with its own inverse — in
either order — is the identity transform on any matrix of matching row count,
and the inverse is of the same variant: a permutation is its own inverse, a
scaling's inverse scales by the reciprocal, an axpy's inverse negates the
scalar. -/
theorem C4_operator_inverse {α : Type} [inst : LinearOrderedField α] {n c : ℕ}
    (op : ElementaryRowOperator α) (M : Mat α) (hM : WF M n c) (h0 : 0 < n)
    (hop : OpValid n op) :
    op.inverted.apply (op.apply M) = M ∧
    op.apply (op.inverted.apply M) = M ∧
    op.inverted = (match op with
      | .permutation p => .permutation p
      | .multiplication k s => .multiplication k (1 / s)
      | .axpy s k r => .axpy (-1 * s) k r) := by
  refine ⟨inverted_apply_apply hM h0 hop, apply_inverted_apply hM h0 hop, ?_⟩
  cases op with
  | permutation p => rfl
  | multiplication k s => rfl
  | axpy s k r => rfl

/-- Witness for C4: an axpy-replace operator on a concrete 2-by-2 matrix. -/
theorem C4_operator_inverse_witness :
    (ElementaryRowOperator.axpy (2 : ℚ) 0 1).inverted.apply
        ((ElementaryRowOperator.axpy (2 : ℚ) 0 1).apply [[1, 2], [3, 4]])
      = [[1, 2], [3, 4]] ∧
    (ElementaryRowOperator.axpy (2 : ℚ) 0 1).apply
        ((ElementaryRowOperator.axpy (2 : ℚ) 0 1).inverted.apply [[1, 2], [3, 4]])
      = [[1, 2], [3, 4]] ∧
    (ElementaryRowOperator.axpy (2 : ℚ) 0 1).inverted
      = ElementaryRowOperator.axpy (-1 * 2 : ℚ) 0 1 := by
  have hM : WF ([[1, 2], [3, 4]] : Mat ℚ) 2 2 := ⟨rfl, by decide⟩
  exact C4_operator_inverse (ElementaryRowOperator.axpy (2 : ℚ) 0 1) _ hM
    (by norm_num) ⟨by norm_num, by norm_num, by norm_num⟩

/-- **C9.**  In each column step the axpy scalars are read from the pivoted
matrix before scaling; since the scaling operator modifies only the diagonal
row, the axpy operators built from the pivoted matrix coincide with the ones
the spec builds from the scaled matrix, the code's reduced matrix equals the
spec-ordered one exactly, and the step sets the diagonal entry of the column
to 1 and every off-diagonal entry to 0. -/
theorem C9_column_step_refines {α : Type} [inst : LinearOrderedField α]
    {n j : ℕ} {pivoted : Mat α} (hm : WF pivoted n n) (h0 : 0 < n) (hj : j < n)
    (hp : tolerance < |entry pivoted j j|) :
    non_diagonal_zeroing_operators
        ((diagonal_scaling_operator pivoted j).apply pivoted) j
      = non_diagonal_zeroing_operators pivoted j ∧
    code_column_step pivoted j = spec_column_step pivoted j ∧
    entry (code_column_step pivoted j) j j = 1 ∧
    (∀ r < n, r ≠ j → entry (code_column_step pivoted j) r j = 0) := by
  have hpne : entry pivoted j j ≠ 0 := ne_zero_of_tolerance_lt hp
  have hscaledWF : WF ((diagonal_scaling_operator pivoted j).apply pivoted) n n :=
    WF_apply hm h0 _
  have hopseq : non_diagonal_zeroing_operators
      ((diagonal_scaling_operator pivoted j).apply pivoted) j
      = non_diagonal_zeroing_operators pivoted j := by
    unfold non_diagonal_zeroing_operators
    rw [hm.n_rows_eq, hscaledWF.n_rows_eq]
    refine List.map_congr_left ?_
    intro r hr
    obtain ⟨hrn, hrj⟩ := mem_filter_range.mp hr
    unfold diagonal_scaling_operator
    rw [apply_mult_entry hm h0 _ hrn j, if_neg hrj, one_mul]
  refine ⟨hopseq, ?_, ?_, ?_⟩
  · unfold code_column_step spec_column_step
    rw [hopseq]
    rfl
  · unfold code_column_step
    rw [code_column_step_entry hm h0 hj hj j, if_pos rfl, one_div_mul_cancel hpne]
  · intro r hrn hrj
    unfold code_column_step
    rw [code_column_step_entry hm h0 hj hrn j, if_neg hrj, one_div_mul_cancel hpne,
      mul_one]
    ring

/-- Witness for C9 on a concrete pivoted 2-by-2 matrix. -/
theorem C9_column_step_refines_witness :
    non_diagonal_zeroing_operators
        ((diagonal_scaling_operator ([[2, 4], [6, 8]] : Mat ℚ) 0).apply
          [[2, 4], [6, 8]]) 0
      = non_diagonal_zeroing_operators ([[2, 4], [6, 8]] : Mat ℚ) 0 ∧
    code_column_step ([[2, 4], [6, 8]] : Mat ℚ) 0
      = spec_column_step ([[2, 4], [6, 8]] : Mat ℚ) 0 ∧
    entry (code_column_step ([[2, 4], [6, 8]] : Mat ℚ) 0) 0 0 = 1 ∧
    (∀ r < 2, r ≠ 0 → entry (code_column_step ([[2, 4], [6, 8]] : Mat ℚ) 0) r 0 = 0) := by
  have hm : WF ([[2, 4], [6, 8]] : Mat ℚ) 2 2 := ⟨rfl, by decide⟩
  exact C9_column_step_refines hm (by norm_num) (by norm_num)
    (by norm_num [entry, tolerance])


/-! ### Failure analysis of the pivot and of `solve` -/

lemma pivot_search_first {m : Mat α} {index : ℕ} :
    ∀ (cnt s f : ℕ), s ≤ f → f < s + cnt →
      tolerance < |entry m f index| →
      (∀ r, s ≤ r → r < f → ¬ tolerance < |entry m r index|) →
      pivot_search m index (List.range' s cnt) =
        .ok (.permutation (index, f)) := by
  intro cnt
  induction cnt with
  | zero =>
    intro s f h1 h2 h3 h4
    omega
  | succ cnt ih =>
    intro s f h1 h2 h3 h4
    rw [List.range'_succ, pivot_search]
    by_cases hs : s = f
    · rw [if_pos (by rw [hs]; exact h3), hs]
    · rw [if_neg (h4 s le_rfl (by omega))]
      exact ih (s + 1) f (by omega) (by omega) h3
        (fun r hr1 hr2 => h4 r (by omega) hr2)

lemma pivot_search_exhausted {m : Mat α} {index : ℕ} :
    ∀ (cnt s : ℕ),
      (∀ r, s ≤ r → r < s + cnt → ¬ tolerance < |entry m r index|) →
      pivot_search m index (List.range' s cnt) = .error .runtimeError := by
  intro cnt
  induction cnt with
  | zero =>
    intro s h
    rfl
  | succ cnt ih =>
    intro s h
    rw [List.range'_succ, pivot_search, if_neg (h s le_rfl (by omega))]
    exact ih (s + 1) (fun r hr1 hr2 => h r (by omega) (by omega))

lemma pivot_search_error {m : Mat α} {index : ℕ} :
    ∀ {l : List ℕ} {e}, pivot_search m index l = .error e → e = .runtimeError := by
  intro l
  induction l with
  | nil =>
    intro e h
    rw [pivot_search] at h
    injection h with h
    exact h.symm
  | cons r rest ih =>
    intro e h
    rw [pivot_search] at h
    by_cases hr : tolerance < |entry m r index|
    · rw [if_pos hr] at h
      exact absurd h (by simp)
    · rw [if_neg hr] at h
      exact ih h

lemma partial_pivot_error {m : Mat α} {index : ℕ} {e} :
    partial_pivot_operator m index = .error e → e = .runtimeError := by
  intro h
  unfold partial_pivot_operator at h
  by_cases hd : tolerance < |entry m index index|
  · rw [if_pos hd] at h
    exact absurd h (by simp)
  · rw [if_neg hd] at h
    exact pivot_search_error h

lemma operate_error {n : ℕ} (h0 : 0 < n) :
    ∀ (fuel : ℕ) {m result : Mat α} {j : ℕ}
      {acc : List (ElementaryRowOperator α)} {e : PyError},
      WF m n n → j ≤ n → n ≤ j + fuel →
      operate_on_one_column fuel m j result acc = .error e → e = .runtimeError := by
  intro fuel
  induction fuel with
  | zero =>
    intro m result j acc e hm hjn hnj h
    have hj : j = n := by omega
    rw [operate_on_one_column, hm.n_columns_eq h0, if_pos hj.symm] at h
    exact absurd h (by simp)
  | succ fuel ih =>
    intro m result j acc e hm hjn hnj h
    rw [operate_on_one_column, hm.n_columns_eq h0] at h
    by_cases hterm : n = j
    · rw [if_pos hterm] at h
      exact absurd h (by simp)
    · rw [if_neg hterm] at h
      have hj : j < n := by omega
      cases hpiv : partial_pivot_operator m j with
      | error e' =>
        rw [hpiv] at h
        injection h with h
        rw [← h]
        exact partial_pivot_error hpiv
      | ok pop =>
        rw [hpiv] at h
        dsimp only at h
        exact ih (WF_apply_operators h0 _ (WF_apply hm h0 _)) (by omega) (by omega) h

/-- **C5.**  The partial pivot: when the diagonal entry is at most the
tolerance, the first row at or below the diagonal whose entry exceeds the
tolerance is swapped in; when none exists the pivot, and with it the whole
elimination call, fails with the `RuntimeError` that models
`SingularMatrixError`, and `invert`, `determinant` and the Gaussian
`precision` propagate that same error unchanged. -/
theorem C5_pivot_and_singular {α : Type} [inst : LinearOrderedField α] :
    (∀ (m : Mat α) (n j f : ℕ), WF m n n → j < n → j ≤ f → f < n →
      ¬ tolerance < |entry m j j| →
      tolerance < |entry m f j| →
      (∀ r, j ≤ r → r < f → ¬ tolerance < |entry m r j|) →
      partial_pivot_operator m j = .ok (.permutation (j, f))) ∧
    (∀ (m : Mat α) (n j : ℕ), WF m n n → j < n →
      (∀ r, j ≤ r → r < n → ¬ tolerance < |entry m r j|) →
      partial_pivot_operator m j = .error .runtimeError) ∧
    (∀ (fuel : ℕ) (m result : Mat α) (n j : ℕ)
      (acc : List (ElementaryRowOperator α)),
      WF m n n → j < n → 0 < fuel →
      (∀ r, j ≤ r → r < n → ¬ tolerance < |entry m r j|) →
      operate_on_one_column fuel m j result acc = .error .runtimeError) ∧
    (∀ (A Y : Mat α) (n : ℕ) (e : PyError), WF A n n → 0 < n →
      solve A Y = .error e → e = .runtimeError) ∧
    (∀ (A : Mat α) (e : PyError),
      solve A (identity_matrix (n_rows A)) = .error e →
      invert A = .error e ∧ determinant A = .error e) ∧
    (∀ (covariance : Mat α) (e : PyError), invert covariance = .error e →
      precision covariance = .error e) := by
  have hpivot_first : ∀ (m : Mat α) (n j f : ℕ), WF m n n → j < n → j ≤ f → f < n →
      ¬ tolerance < |entry m j j| →
      tolerance < |entry m f j| →
      (∀ r, j ≤ r → r < f → ¬ tolerance < |entry m r j|) →
      partial_pivot_operator m j = .ok (.permutation (j, f)) := by
    intro m n j f hm hj hjf hf hd hfq hfirst
    unfold partial_pivot_operator
    rw [if_neg hd, hm.n_rows_eq]
    exact pivot_search_first (n - j) j f hjf (by omega) hfq hfirst
  have hpivot_none : ∀ (m : Mat α) (n j : ℕ), WF m n n → j < n →
      (∀ r, j ≤ r → r < n → ¬ tolerance < |entry m r j|) →
      partial_pivot_operator m j = .error .runtimeError := by
    intro m n j hm hj hnone
    unfold partial_pivot_operator
    rw [if_neg (hnone j le_rfl hj), hm.n_rows_eq]
    exact pivot_search_exhausted (n - j) j (fun r h1 h2 => hnone r h1 (by omega))
  refine ⟨hpivot_first, hpivot_none, ?_, ?_, ?_, ?_⟩
  · intro fuel m result n j acc hm hj hfuel hnone
    obtain ⟨fuel', rfl⟩ := Nat.exists_eq_succ_of_ne_zero hfuel.ne'
    rw [operate_on_one_column, hm.n_columns_eq (by omega),
      if_neg (by omega), hpivot_none m n j hm hj hnone]
  · intro A Y n e hA h0 h
    unfold solve at h
    rw [hA.n_columns_eq h0] at h
    exact operate_error h0 n hA (Nat.zero_le n) (by omega) h
  · intro A e h
    constructor
    · unfold invert
      rw [h]
      rfl
    · unfold determinant
      rw [h]
      rfl
  · intro covariance e h
    exact h

/-- Witness for C5 at concrete inputs: a swap into the diagonal for
`[[0,1],[1,0]]` at column 0, and the singular failure of the all-zero
matrix. -/
theorem C5_pivot_and_singular_witness :
    partial_pivot_operator ([[0, 1], [1, 0]] : Mat ℚ) 0 =
      .ok (.permutation (0, 1)) ∧
    partial_pivot_operator ([[0, 0], [0, 0]] : Mat ℚ) 0 = .error .runtimeError ∧
    solve ([[0, 0], [0, 0]] : Mat ℚ) (identity_matrix 2) = .error .runtimeError ∧
    invert ([[0, 0], [0, 0]] : Mat ℚ) = .error .runtimeError ∧
    determinant ([[0, 0], [0, 0]] : Mat ℚ) = .error .runtimeError ∧
    precision ([[0, 0], [0, 0]] : Mat ℚ) = .error .runtimeError := by
  have hm1 : WF ([[0, 1], [1, 0]] : Mat ℚ) 2 2 := ⟨rfl, by decide⟩
  have hm0 : WF ([[0, 0], [0, 0]] : Mat ℚ) 2 2 := ⟨rfl, by decide⟩
  have hnone : ∀ r, 0 ≤ r → r < 2 →
      ¬ tolerance < |entry ([[0, 0], [0, 0]] : Mat ℚ) r 0| := by
    intro r h1 h2
    interval_cases r
    · norm_num [entry, tolerance]
    · norm_num [entry, tolerance]
  have h1 := (C5_pivot_and_singular (α := ℚ)).1 [[0, 1], [1, 0]] 2 0 1 hm1
    (by norm_num) (by norm_num) (by norm_num)
    (by norm_num [entry, tolerance]) (by norm_num [entry, tolerance])
    (by
      intro r hr1 hr2
      have hr0 : r = 0 := by omega
      subst hr0
      norm_num [entry, tolerance])
  have h2 := (C5_pivot_and_singular (α := ℚ)).2.1 [[0, 0], [0, 0]] 2 0 hm0
    (by norm_num) hnone
  have h3 : solve ([[0, 0], [0, 0]] : Mat ℚ) (identity_matrix 2) =
      .error .runtimeError := by
    have := (C5_pivot_and_singular (α := ℚ)).2.2.1 2 [[0, 0], [0, 0]]
      (identity_matrix 2) 2 0 [] hm0 (by norm_num) (by norm_num) hnone
    exact this
  have h4 := (C5_pivot_and_singular (α := ℚ)).2.2.2.2.1 [[0, 0], [0, 0]]
    .runtimeError (by simpa [n_rows] using h3)
  have h5 := (C5_pivot_and_singular (α := ℚ)).2.2.2.2.2 [[0, 0], [0, 0]]
    .runtimeError h4.1
  exact ⟨h1, h2, h3, h4.1, h4.2, h5⟩


lemma foldl_mul_eq_prod (d : α) (ds : List α) :
    ds.foldl (fun x1 x2 => x1 * x2) d = (d :: ds).prod := by
  induction ds generalizing d with
  | nil => simp
  | cons x xs ih =>
    rw [List.foldl_cons, ih, List.prod_cons, List.prod_cons, List.prod_cons,
      ← mul_assoc]

/-! ### The trace does not depend on the right-hand side -/

lemma operate_trace_indep :
    ∀ (fuel : ℕ) {m result X : Mat α} {j : ℕ}
      {acc ops : List (ElementaryRowOperator α)},
      operate_on_one_column fuel m j result acc = .ok (X, ops) →
      ∃ tail, ops = acc ++ tail ∧
        ∀ (result' : Mat α) (acc' : List (ElementaryRowOperator α)),
          ∃ X', operate_on_one_column fuel m j result' acc' = .ok (X', acc' ++ tail) := by
  intro fuel
  induction fuel with
  | zero =>
    intro m result X j acc ops h
    rw [operate_on_one_column] at h
    by_cases hc : n_columns m = j
    · rw [if_pos hc] at h
      injection h with hpair
      have hops : ops = acc := (congrArg Prod.snd hpair).symm
      refine ⟨[], by simp [hops], ?_⟩
      intro result' acc'
      exact ⟨result', by rw [operate_on_one_column, if_pos hc]; simp⟩
    · rw [if_neg hc] at h
      exact absurd h (by simp)
  | succ fuel ih =>
    intro m result X j acc ops h
    rw [operate_on_one_column] at h
    by_cases hc : n_columns m = j
    · rw [if_pos hc] at h
      injection h with hpair
      have hops : ops = acc := (congrArg Prod.snd hpair).symm
      refine ⟨[], by simp [hops], ?_⟩
      intro result' acc'
      exact ⟨result', by rw [operate_on_one_column, if_pos hc]; simp⟩
    · rw [if_neg hc] at h
      cases hpiv : partial_pivot_operator m j with
      | error e =>
        rw [hpiv] at h
        exact absurd h (by simp)
      | ok pop =>
        rw [hpiv] at h
        dsimp only at h
        obtain ⟨tail, htail, hall⟩ := ih h
        refine ⟨(pop :: (diagonal_scaling_operator (pop.apply m) j ::
          non_diagonal_zeroing_operators (pop.apply m) j)) ++ tail, ?_, ?_⟩
        · rw [htail]
          simp
        · intro result' acc'
          obtain ⟨X', hX'⟩ := hall
            (apply_operators (pop.apply result')
              (diagonal_scaling_operator (pop.apply m) j ::
                non_diagonal_zeroing_operators (pop.apply m) j))
            (acc' ++ pop :: (diagonal_scaling_operator (pop.apply m) j ::
              non_diagonal_zeroing_operators (pop.apply m) j))
          refine ⟨X', ?_⟩
          rw [operate_on_one_column, if_neg hc, hpiv]
          dsimp only
          rw [hX']
          rw [List.append_assoc]

/-- **C10.**  On every successful elimination the trace is non-empty, every
scaling operator's scalar is the reciprocal of a pivot exceeding the tolerance
(hence nonzero), so `determinant`'s inversion of the trace operators never
divides by zero, and its seedless product reduction receives a non-empty
sequence and succeeds. -/
theorem C10_trace_safety {α : Type} [inst : LinearOrderedField α] {n c : ℕ}
    {A Y X : Mat α} {ops : List (ElementaryRowOperator α)}
    (hA : WF A n n) (hY : WF Y n c) (h0 : 0 < n) (h0c : 0 < c)
    (h : solve A Y = .ok (X, ops)) :
    ops ≠ [] ∧
    (∀ k s, ElementaryRowOperator.multiplication k s ∈ ops →
      s ≠ 0 ∧ ∃ piv : α, tolerance < |piv| ∧ s = 1 / piv) ∧
    determinant A =
      .ok ((ops.map (fun op => op.inverted.matrix_determinant)).prod) := by
  obtain ⟨hX, hid, hXwf, hvalid, hmult, hblocks⟩ := solve_spec hA hY h0 h0c h
  have hne : ops ≠ [] := by
    obtain ⟨blocks, rfl, hlen, hall⟩ := hblocks
    cases blocks with
    | nil =>
      simp only [List.length_nil] at hlen
      omega
    | cons b bs =>
      obtain ⟨p, k, s, axs, rfl, _, _⟩ := hall b (List.mem_cons_self b bs)
      simp
  refine ⟨hne, ?_, ?_⟩
  · intro k s hs
    obtain ⟨piv, hpiv, hspiv⟩ := hmult k s hs
    exact ⟨by rw [hspiv]; exact one_div_ne_zero (ne_zero_of_tolerance_lt hpiv),
      piv, hpiv, hspiv⟩
  · have hsolveI : ∃ X', solve A (identity_matrix (n_rows A)) = .ok (X', ops) := by
      unfold solve at h ⊢
      obtain ⟨tail, htail, hall⟩ := operate_trace_indep (n_columns A) h
      simp only [List.nil_append] at htail
      subst htail
      obtain ⟨X', hX'⟩ := hall (identity_matrix (n_rows A)) []
      exact ⟨X', by simpa using hX'⟩
    obtain ⟨X', hX'⟩ := hsolveI
    obtain ⟨op0, rest, rfl⟩ := List.exists_cons_of_ne_nil hne
    unfold determinant
    rw [hX']
    show Except.ok (List.foldl (fun x1 x2 => x1 * x2)
      (op0.inverted.matrix_determinant)
      (rest.map (fun op => op.inverted.matrix_determinant))) = _
    rw [foldl_mul_eq_prod]
    rfl

/-- Witness for C10 on the concrete elimination of `[[5]]`. -/
theorem C10_trace_safety_witness :
    solve ([[5]] : Mat ℚ) [[1]] =
      .ok ([[1/5]], [.permutation (0, 0), .multiplication 0 (1/5)]) ∧
    (([.permutation (0, 0), .multiplication 0 (1/5)] :
        List (ElementaryRowOperator ℚ)) ≠ [] ∧
    (∀ k s, ElementaryRowOperator.multiplication k s ∈
        ([.permutation (0, 0), .multiplication 0 (1/5)] :
          List (ElementaryRowOperator ℚ)) →
      s ≠ 0 ∧ ∃ piv : ℚ, tolerance < |piv| ∧ s = 1 / piv) ∧
    determinant ([[5]] : Mat ℚ) =
      .ok ((([.permutation (0, 0), .multiplication 0 (1/5)] :
        List (ElementaryRowOperator ℚ)).map
          (fun op => op.inverted.matrix_determinant)).prod)) := by
  have hsolve : solve ([[5]] : Mat ℚ) [[1]] =
      .ok ([[1/5]], [.permutation (0, 0), .multiplication 0 (1/5)]) := by
    norm_num [solve, operate_on_one_column, partial_pivot_operator,
      pivot_search, non_diagonal_zeroing_operators, diagonal_scaling_operator, tolerance,
      entry, n_rows, n_columns, ElementaryRowOperator.apply,
      ElementaryRowOperator.operator_matrix, ElementaryRowOperator.perm_matrix,
      ElementaryRowOperator.mult_matrix, ElementaryRowOperator.axpy_matrix,
      ElementaryRowOperator.unit_row, apply_operators, multiply, columns, column,
      dot, identity_matrix, List.range_succ, List.range', Function.comp,
      abs_of_nonneg, abs_of_nonpos]
  have hA : WF ([[5]] : Mat ℚ) 1 1 := ⟨rfl, by decide⟩
  have hY : WF ([[1]] : Mat ℚ) 1 1 := ⟨rfl, by decide⟩
  exact ⟨hsolve, C10_trace_safety hA hY (by norm_num) (by norm_num) hsolve⟩


/-! ### Determinants of the operator matrices -/

lemma swap_fin {n a b i : ℕ} (ha : a < n) (hb : b < n) (hi : i < n) :
    Equiv.swap (⟨a, ha⟩ : Fin n) ⟨b, hb⟩ ⟨i, hi⟩
      = ⟨swap_apply a b i, swap_apply_lt ha hb hi⟩ := by
  apply Fin.ext
  simp only [Equiv.swap_apply_def, apply_ite Fin.val, Fin.mk.injEq]
  unfold swap_apply
  rfl

lemma det_opM_perm {n a b : ℕ} (ha : a < n) (hb : b < n) :
    (opM (α := α) n (ElementaryRowOperator.permutation (a, b))).det
      = if a = b then (1 : α) else -1 := by
  have hmat : opM (α := α) n (ElementaryRowOperator.permutation (a, b))
      = (Equiv.swap (⟨a, ha⟩ : Fin n) ⟨b, hb⟩).permMatrix α := by
    ext i j
    show entry (ElementaryRowOperator.perm_matrix a b n) (i : ℕ) (j : ℕ) = _
    unfold entry
    rw [perm_matrix_row a b i.isLt]
    unfold ElementaryRowOperator.unit_row
    rw [getD_map_range, if_pos j.isLt]
    rw [show ((Equiv.swap (⟨a, ha⟩ : Fin n) ⟨b, hb⟩).permMatrix α) i j
        = (1 : Matrix (Fin n) (Fin n) α) (Equiv.swap (⟨a, ha⟩ : Fin n) ⟨b, hb⟩ i) j
      from PEquiv.equiv_toPEquiv_toMatrix _ i j]
    rw [show (i : Fin n) = ⟨(i : ℕ), i.isLt⟩ from rfl, swap_fin ha hb i.isLt,
      Matrix.one_apply]
    by_cases hc : (j : ℕ) = swap_apply a b (i : ℕ)
    · rw [if_pos hc, if_pos (Fin.ext hc.symm)]
    · rw [if_neg hc, if_neg (fun hcc => hc ((congrArg Fin.val hcc).symm))]
  rw [hmat]
  by_cases hab : a = b
  · rw [if_pos hab]
    subst hab
    rw [show (⟨a, hb⟩ : Fin n) = ⟨a, ha⟩ from rfl, Equiv.swap_self,
      Matrix.det_permutation]
    simp
  · rw [if_neg hab, Matrix.det_permutation,
      Equiv.Perm.sign_swap (fun hcc => hab (congrArg Fin.val hcc))]
    simp

lemma det_opM_mult {n k : ℕ} (hk : k < n) (s : α) :
    (opM (α := α) n (ElementaryRowOperator.multiplication k s)).det = s := by
  have hmat : opM (α := α) n (ElementaryRowOperator.multiplication k s)
      = Matrix.diagonal (fun i : Fin n => if i = (⟨k, hk⟩ : Fin n) then s else 1) := by
    ext i j
    show entry (ElementaryRowOperator.mult_matrix k s n) (i : ℕ) (j : ℕ) = _
    unfold entry
    rw [mult_matrix_row k s i.isLt, getD_map_range, if_pos j.isLt,
      Matrix.diagonal_apply]
    by_cases hji : (j : ℕ) = (i : ℕ)
    · rw [if_pos hji, if_pos (Fin.ext hji.symm)]
      by_cases hik : (i : ℕ) = k
      · rw [if_pos hik, if_pos (Fin.ext hik)]
      · rw [if_neg hik, if_neg (fun hc => hik (congrArg Fin.val hc))]
    · rw [if_neg hji, if_neg (fun hc => hji ((congrArg Fin.val hc).symm))]
  rw [hmat, Matrix.det_diagonal,
    Finset.prod_ite_eq' Finset.univ (⟨k, hk⟩ : Fin n) (fun _ => s),
    if_pos (Finset.mem_univ _)]

lemma det_opM_axpy {n k r : ℕ} (hk : k < n) (hr : r < n) (hrk : r ≠ k) (s : α) :
    (opM (α := α) n (ElementaryRowOperator.axpy s k r)).det = 1 := by
  have hmat : opM (α := α) n (ElementaryRowOperator.axpy s k r)
      = Matrix.transvection (⟨r, hr⟩ : Fin n) ⟨k, hk⟩ s := by
    ext i j
    show entry (ElementaryRowOperator.axpy_matrix s k r n) (i : ℕ) (j : ℕ) = _
    unfold entry ElementaryRowOperator.axpy_matrix
    rw [getD_map_range, if_pos i.isLt, getD_map_range, if_pos j.isLt]
    rw [Matrix.transvection, Matrix.add_apply, Matrix.one_apply]
    unfold Matrix.stdBasisMatrix
    simp only [Matrix.of_apply]
    by_cases hij : (i : ℕ) = (j : ℕ)
    · rw [if_pos hij, if_pos (Fin.ext hij)]
      rw [if_neg (by
        rintro ⟨h1, h2⟩
        apply hrk
        have hv1 : r = (i : ℕ) := congrArg Fin.val h1
        have hv2 : k = (j : ℕ) := congrArg Fin.val h2
        omega), add_zero]
    · rw [if_neg hij, if_neg (fun hc => hij (congrArg Fin.val hc)), zero_add]
      by_cases hc : (i : ℕ) = r ∧ (j : ℕ) = k
      · rw [if_pos hc, if_pos ⟨Fin.ext hc.1.symm, Fin.ext hc.2.symm⟩]
      · rw [if_neg hc, if_neg (fun hcc =>
          hc ⟨(congrArg Fin.val hcc.1).symm, (congrArg Fin.val hcc.2).symm⟩)]
  rw [hmat]
  exact Matrix.det_transvection_of_ne _ _ (fun hc => hrk (congrArg Fin.val hc)) s

lemma det_opM {n : ℕ} {op : ElementaryRowOperator α} (hop : OpValid n op) :
    (opM n op).det = op.matrix_determinant := by
  cases op with
  | permutation p =>
    obtain ⟨a, b⟩ := p
    obtain ⟨ha, hb⟩ := hop
    exact det_opM_perm ha hb
  | multiplication k s =>
    obtain ⟨hk, _⟩ := hop
    exact det_opM_mult hk s
  | axpy s k r =>
    obtain ⟨hk, hr, hrk⟩ := hop
    exact det_opM_axpy hk hr hrk s

lemma toM_apply {n c : ℕ} (op : ElementaryRowOperator α) {m : Mat α}
    (hm : WF m n c) (h0 : 0 < n) :
    toM n c (op.apply m) = opM n op * toM n c m := by
  unfold ElementaryRowOperator.apply opM
  rw [hm.n_rows_eq]
  exact toM_multiply (WF_operator_matrix op n) hm h0

lemma toM_apply_operators {n c : ℕ} (h0 : 0 < n)
    (ops : List (ElementaryRowOperator α)) :
    ∀ {m : Mat α}, WF m n c →
      toM n c (apply_operators m ops) = ops_product n ops * toM n c m := by
  induction ops with
  | nil =>
    intro m hm
    rw [ops_product, Matrix.one_mul]
    rfl
  | cons op rest ih =>
    intro m hm
    show toM n c (apply_operators (op.apply m) rest) = _
    rw [ih (WF_apply hm h0 op), toM_apply op hm h0, ops_product, Matrix.mul_assoc]

lemma det_ops_product {n : ℕ} (ops : List (ElementaryRowOperator α))
    (hops : ∀ op ∈ ops, OpValid n op) :
    (ops_product n ops).det
      = (ops.map (fun op => op.matrix_determinant)).prod := by
  induction ops with
  | nil => simp [ops_product]
  | cons op rest ih =>
    rw [ops_product, Matrix.det_mul,
      ih (fun o ho => hops o (List.mem_cons_of_mem _ ho)),
      det_opM (hops op (List.mem_cons_self op rest)),
      List.map_cons, List.prod_cons, mul_comm]

lemma inverted_matrix_determinant (op : ElementaryRowOperator α) :
    op.inverted.matrix_determinant = (op.matrix_determinant)⁻¹ := by
  cases op with
  | permutation p =>
    obtain ⟨a, b⟩ := p
    by_cases h : a = b
    · simp [ElementaryRowOperator.inverted, ElementaryRowOperator.matrix_determinant, h]
    · simp only [ElementaryRowOperator.inverted,
        ElementaryRowOperator.matrix_determinant, if_neg h]
      norm_num
  | multiplication k s =>
    simp [ElementaryRowOperator.inverted, ElementaryRowOperator.matrix_determinant,
      one_div]
  | axpy s k r =>
    simp [ElementaryRowOperator.inverted, ElementaryRowOperator.matrix_determinant]

lemma prod_inverted_dets (ops : List (ElementaryRowOperator α)) :
    (ops.map (fun op => op.inverted.matrix_determinant)).prod
      = ((ops.map (fun op => op.matrix_determinant)).prod)⁻¹ := by
  induction ops with
  | nil => simp
  | cons op rest ih =>
    rw [List.map_cons, List.prod_cons, List.map_cons, List.prod_cons, mul_inv,
      inverted_matrix_determinant, ih]

/-- **C3.**  The determinant via the elimination trace: whenever
`solve(A, identity)` succeeds, `determinant(A)` returns the product of the
determinant contributions of the inverted trace operators, and that value is
the true (Mathlib) determinant of `A`; concretely,
`determinant([[3,7],[1,-4]]) = -19`. -/
theorem C3_determinant_correct :
    (∀ (α : Type) [inst : LinearOrderedField α] (n : ℕ) (A X : Mat α)
      (ops : List (ElementaryRowOperator α)),
      WF A n n → 0 < n →
      solve A (identity_matrix (n_rows A)) = .ok (X, ops) →
      determinant A =
        .ok ((ops.map (fun op => op.inverted.matrix_determinant)).prod) ∧
      (ops.map (fun op => op.inverted.matrix_determinant)).prod
        = (toM n n A).det) ∧
    determinant ([[3, 7], [1, -4]] : Mat ℚ) = .ok (-19) := by
  constructor
  · intro α inst n A X ops hA h0 hsolve
    have hIn : n_rows A = n := hA.n_rows_eq
    have hsolve' : solve A (identity_matrix n) = .ok (X, ops) := by
      rwa [hIn] at hsolve
    obtain ⟨hX, hid, hXwf, hvalid, hmult, hblocks⟩ :=
      solve_spec hA (WF_identity n) h0 h0 hsolve'
    have hne : ops ≠ [] := by
      obtain ⟨blocks, rfl, hlen, hall⟩ := hblocks
      cases blocks with
      | nil =>
        simp only [List.length_nil] at hlen
        omega
      | cons b bs =>
        obtain ⟨p, k, s, axs, rfl, _, _⟩ := hall b (List.mem_cons_self b bs)
        simp
    constructor
    · obtain ⟨op0, rest, rfl⟩ := List.exists_cons_of_ne_nil hne
      unfold determinant
      rw [hsolve]
      show Except.ok (List.foldl (fun x1 x2 => x1 * x2)
        (op0.inverted.matrix_determinant)
        (rest.map (fun op => op.inverted.matrix_determinant))) = _
      rw [foldl_mul_eq_prod]
      rfl
    · have h1 : toM n n (apply_operators A ops) = ops_product n ops * toM n n A :=
        toM_apply_operators h0 ops hA
      rw [hid, toM_identity] at h1
      have h2 := congrArg Matrix.det h1
      rw [Matrix.det_one, Matrix.det_mul, det_ops_product ops hvalid] at h2
      rw [prod_inverted_dets]
      exact (eq_inv_of_mul_eq_one_right h2.symm).symm
  · norm_num [determinant, solve, operate_on_one_column, partial_pivot_operator,
      pivot_search, non_diagonal_zeroing_operators, diagonal_scaling_operator, tolerance,
      entry, n_rows, n_columns, ElementaryRowOperator.apply,
      ElementaryRowOperator.operator_matrix, ElementaryRowOperator.perm_matrix,
      ElementaryRowOperator.mult_matrix, ElementaryRowOperator.axpy_matrix,
      ElementaryRowOperator.unit_row, ElementaryRowOperator.inverted,
      ElementaryRowOperator.matrix_determinant, apply_operators, multiply, columns,
      column, dot, identity_matrix, List.range_succ, List.range', Function.comp,
      abs_of_nonneg, abs_of_nonpos, Except.instMonad, Except.bind, Except.map,
      Except.pure]

/-- Witness for C3's universally quantified part on the concrete matrix
`[[3,7],[1,-4]]`. -/
theorem C3_determinant_correct_witness :
    solve ([[3, 7], [1, -4]] : Mat ℚ) (identity_matrix (n_rows [[3, 7], [1, -4]])) =
      .ok ([[4/19, 7/19], [1/19, -(3/19)]],
        [.permutation (0, 0), .multiplication 0 (1/3), .axpy (-1) 0 1,
         .permutation (0, 0), .multiplication 1 (-(3/19)), .axpy (-(7/3)) 1 0]) ∧
    determinant ([[3, 7], [1, -4]] : Mat ℚ) =
      .ok ((([.permutation (0, 0), .multiplication 0 (1/3), .axpy (-1) 0 1,
         .permutation (0, 0), .multiplication 1 (-(3/19)), .axpy (-(7/3)) 1 0] :
          List (ElementaryRowOperator ℚ)).map
        (fun op => op.inverted.matrix_determinant)).prod) ∧
    ((([.permutation (0, 0), .multiplication 0 (1/3), .axpy (-1) 0 1,
         .permutation (0, 0), .multiplication 1 (-(3/19)), .axpy (-(7/3)) 1 0] :
          List (ElementaryRowOperator ℚ)).map
        (fun op => op.inverted.matrix_determinant)).prod
      = (toM 2 2 ([[3, 7], [1, -4]] : Mat ℚ)).det) := by
  have hA : WF ([[3, 7], [1, -4]] : Mat ℚ) 2 2 := ⟨rfl, by decide⟩
  have hsolve : solve ([[3, 7], [1, -4]] : Mat ℚ)
      (identity_matrix (n_rows [[3, 7], [1, -4]])) =
      .ok ([[4/19, 7/19], [1/19, -(3/19)]],
        [.permutation (0, 0), .multiplication 0 (1/3), .axpy (-1) 0 1,
         .permutation (0, 0), .multiplication 1 (-(3/19)), .axpy (-(7/3)) 1 0]) := by
    norm_num [solve, operate_on_one_column, partial_pivot_operator,
      pivot_search, non_diagonal_zeroing_operators, diagonal_scaling_operator, tolerance,
      entry, n_rows, n_columns, ElementaryRowOperator.apply,
      ElementaryRowOperator.operator_matrix, ElementaryRowOperator.perm_matrix,
      ElementaryRowOperator.mult_matrix, ElementaryRowOperator.axpy_matrix,
      ElementaryRowOperator.unit_row, apply_operators, multiply, columns, column,
      dot, identity_matrix, List.range_succ, List.range', Function.comp,
      abs_of_nonneg, abs_of_nonpos]
  obtain ⟨hdet, htrue⟩ := C3_determinant_correct.1 ℚ 2 [[3, 7], [1, -4]]
    [[4/19, 7/19], [1/19, -(3/19)]]
    [.permutation (0, 0), .multiplication 0 (1/3), .axpy (-1) 0 1,
     .permutation (0, 0), .multiplication 1 (-(3/19)), .axpy (-(7/3)) 1 0]
    hA (by norm_num) hsolve
  exact ⟨hsolve, hdet, htrue⟩


/-! ### The construction layer: `Matrix.make` and friends -/

lemma dedup_length_le_one_iff {l : List ℕ} :
    l.dedup.length ≤ 1 ↔ ∀ x ∈ l, ∀ y ∈ l, x = y := by
  constructor
  · intro h x hx y hy
    cases hd : l.dedup with
    | nil =>
      have := List.mem_dedup.mpr hx
      rw [hd] at this
      simp at this
    | cons z t =>
      have ht : t = [] := by
        rw [hd] at h
        cases t with
        | nil => rfl
        | cons _ _ => simp at h
      have hx' := List.mem_dedup.mpr hx
      have hy' := List.mem_dedup.mpr hy
      rw [hd, ht] at hx' hy'
      simp at hx' hy'
      rw [hx', hy']
  · intro h
    cases hd : l.dedup with
    | nil =>
      simp
    | cons z t =>
      cases t with
      | nil =>
        simp
      | cons w t2 =>
        have hnd := l.nodup_dedup
        rw [hd] at hnd
        have hz : z ∈ l := List.mem_dedup.mp (by rw [hd]; simp)
        have hw : w ∈ l := List.mem_dedup.mp (by rw [hd]; simp)
        have hzw : z = w := h z hz w hw
        rw [List.nodup_cons] at hnd
        exact absurd (by rw [hzw]; simp : z ∈ w :: t2) hnd.1

lemma base_post_init_cases (rows : Mat α) :
    base_post_init rows = .ok () ∨ base_post_init rows = .error .valueError := by
  unfold base_post_init
  split
  · exact Or.inr rfl
  split
  · exact Or.inr rfl
  split
  · exact Or.inr rfl
  · exact Or.inl rfl

lemma base_post_init_ok {rows : Mat α} (hne : rows ≠ []) :
    base_post_init rows = .ok () ↔ ∃ c, 0 < c ∧ ∀ row ∈ rows, row.length = c := by
  obtain ⟨r0, rest, rfl⟩ := List.exists_cons_of_ne_nil hne
  unfold base_post_init
  constructor
  · intro h
    by_cases h1 : 1 < ((r0 :: rest).map List.length).dedup.length
    · rw [if_pos h1] at h
      exact absurd h (by simp)
    · rw [if_neg h1, if_neg (by simp)] at h
      by_cases h3 : ((r0 :: rest).headD []).length = 0
      · rw [if_pos h3] at h
        exact absurd h (by simp)
      · refine ⟨r0.length, Nat.pos_of_ne_zero (by simpa using h3), ?_⟩
        intro row hrow
        exact dedup_length_le_one_iff.mp (not_lt.mp h1) row.length
          (List.mem_map_of_mem _ hrow) r0.length
          (List.mem_map_of_mem _ (List.mem_cons_self r0 rest))
  · rintro ⟨c, hc, hall⟩
    have h1 : ¬ 1 < ((r0 :: rest).map List.length).dedup.length := by
      refine not_lt.mpr (dedup_length_le_one_iff.mpr ?_)
      intro x hx y hy
      obtain ⟨rx, hrx, rfl⟩ := List.mem_map.mp hx
      obtain ⟨ry, hry, rfl⟩ := List.mem_map.mp hy
      rw [hall rx hrx, hall ry hry]
    have h3 : ¬ ((r0 :: rest).headD []).length = 0 := by
      have := hall r0 (List.mem_cons_self r0 rest)
      simp only [List.headD_cons]
      omega
    rw [if_neg h1, if_neg (by simp), if_neg h3]

lemma mk_row_vector_ok {rows : Mat α} {m : PyMatrix α}
    (h : mk_row_vector rows = .ok m) :
    base_post_init rows = .ok () ∧ m = ⟨.rowVector, rows⟩ := by
  unfold mk_row_vector at h
  by_cases h1 : rows.length ≠ 1
  · rw [if_pos h1] at h
    exact absurd h (by simp)
  · rw [if_neg h1] at h
    rcases base_post_init_cases rows with hb | hb
    · rw [hb] at h
      simp only [Except.map, Except.ok.injEq] at h
      exact ⟨hb, h.symm⟩
    · rw [hb] at h
      simp [Except.map] at h

lemma mk_column_vector_ok {rows : Mat α} {m : PyMatrix α}
    (h : mk_column_vector rows = .ok m) :
    base_post_init rows = .ok () ∧ m = ⟨.columnVector, rows⟩ := by
  cases rows with
  | nil => exact absurd h (by simp [mk_column_vector])
  | cons r0 rest =>
    unfold mk_column_vector at h
    rw [List.head?_cons] at h
    dsimp only at h
    by_cases h1 : r0.length ≠ 1
    · rw [if_pos h1] at h
      exact absurd h (by simp)
    · rw [if_neg h1] at h
      rcases base_post_init_cases (r0 :: rest) with hb | hb
      · rw [hb] at h
        simp only [Except.map, Except.ok.injEq] at h
        exact ⟨hb, h.symm⟩
      · rw [hb] at h
        simp [Except.map] at h

lemma mk_square_matrix_ok {rows : Mat α} {m : PyMatrix α}
    (h : mk_square_matrix rows = .ok m) :
    base_post_init rows = .ok () ∧ m = ⟨.squareMatrix, rows⟩ := by
  unfold mk_square_matrix at h
  rcases base_post_init_cases rows with hb | hb
  · rw [hb] at h
    simp only [Except.bind] at h
    by_cases h1 : rows.length ≠ (rows.headD []).length
    · rw [if_pos h1] at h
      exact absurd h (by simp)
    · rw [if_neg h1] at h
      injection h with h
      exact ⟨hb, h.symm⟩
  · rw [hb] at h
    simp [Except.bind] at h

lemma mk_rectangular_matrix_ok {rows : Mat α} {m : PyMatrix α}
    (h : mk_rectangular_matrix rows = .ok m) :
    base_post_init rows = .ok () ∧ m = ⟨.rectangularMatrix, rows⟩ := by
  unfold mk_rectangular_matrix at h
  rcases base_post_init_cases rows with hb | hb
  · rw [hb] at h
    simp only [Except.bind] at h
    by_cases h1 : rows.length = (rows.headD []).length
    · rw [if_pos h1] at h
      exact absurd h (by simp)
    · rw [if_neg h1] at h
      injection h with h
      exact ⟨hb, h.symm⟩
  · rw [hb] at h
    simp [Except.bind] at h

lemma make_rows {rows : Mat α} {m : PyMatrix α} (h : make rows = .ok m) :
    m.rows = rows := by
  cases rows with
  | nil => exact absurd h (by simp [make])
  | cons r0 rest =>
    unfold make at h
    rw [List.head?_cons] at h
    dsimp only at h
    by_cases h1 : (r0 :: rest).length = 1
    · rw [if_pos h1] at h
      rw [(mk_row_vector_ok h).2]
    · rw [if_neg h1] at h
      by_cases h2 : r0.length = 1
      · rw [if_pos h2] at h
        rw [(mk_column_vector_ok h).2]
      · rw [if_neg h2] at h
        by_cases h3 : (r0 :: rest).length = r0.length
        · rw [if_pos h3] at h
          rw [(mk_square_matrix_ok h).2]
        · rw [if_neg h3] at h
          rw [(mk_rectangular_matrix_ok h).2]

lemma make_ok_base {rows : Mat α} {m : PyMatrix α} (h : make rows = .ok m) :
    base_post_init rows = .ok () := by
  cases rows with
  | nil => exact absurd h (by simp [make])
  | cons r0 rest =>
    unfold make at h
    rw [List.head?_cons] at h
    dsimp only at h
    by_cases h1 : (r0 :: rest).length = 1
    · rw [if_pos h1] at h
      exact (mk_row_vector_ok h).1
    · rw [if_neg h1] at h
      by_cases h2 : r0.length = 1
      · rw [if_pos h2] at h
        exact (mk_column_vector_ok h).1
      · rw [if_neg h2] at h
        by_cases h3 : (r0 :: rest).length = r0.length
        · rw [if_pos h3] at h
          exact (mk_square_matrix_ok h).1
        · rw [if_neg h3] at h
          exact (mk_rectangular_matrix_ok h).1

lemma make_cases {rows : Mat α} (hne : rows ≠ []) :
    (base_post_init rows = .ok () ∧ ∃ m, make rows = .ok m ∧ m.rows = rows) ∨
      (base_post_init rows = .error .valueError ∧
        make rows = .error .valueError) := by
  obtain ⟨r0, rest, rfl⟩ := List.exists_cons_of_ne_nil hne
  unfold make
  rw [List.head?_cons]
  dsimp only
  rcases base_post_init_cases (r0 :: rest) with hb | hb
  · by_cases h1 : (r0 :: rest).length = 1
    · rw [if_pos h1]
      left
      refine ⟨hb, ⟨.rowVector, r0 :: rest⟩, ?_, rfl⟩
      unfold mk_row_vector
      rw [if_neg (by omega), hb]
      rfl
    · rw [if_neg h1]
      by_cases h2 : r0.length = 1
      · rw [if_pos h2]
        left
        refine ⟨hb, ⟨.columnVector, r0 :: rest⟩, ?_, rfl⟩
        unfold mk_column_vector
        rw [List.head?_cons]
        dsimp only
        rw [if_neg (not_not.mpr h2), hb]
        rfl
      · rw [if_neg h2]
        by_cases h3 : (r0 :: rest).length = r0.length
        · rw [if_pos h3]
          left
          refine ⟨hb, ⟨.squareMatrix, r0 :: rest⟩, ?_, rfl⟩
          unfold mk_square_matrix
          rw [hb]
          simp only [Except.bind]
          rw [if_neg (by simpa using h3)]
        · rw [if_neg h3]
          left
          refine ⟨hb, ⟨.rectangularMatrix, r0 :: rest⟩, ?_, rfl⟩
          unfold mk_rectangular_matrix
          rw [hb]
          simp only [Except.bind]
          rw [if_neg (by simpa using h3)]
  · right
    refine ⟨hb, ?_⟩
    by_cases h1 : (r0 :: rest).length = 1
    · rw [if_pos h1]
      unfold mk_row_vector
      rw [if_neg (by omega), hb]
      rfl
    · rw [if_neg h1]
      by_cases h2 : r0.length = 1
      · rw [if_pos h2]
        unfold mk_column_vector
        rw [List.head?_cons]
        dsimp only
        rw [if_neg (not_not.mpr h2), hb]
        rfl
      · rw [if_neg h2]
        by_cases h3 : (r0 :: rest).length = r0.length
        · rw [if_pos h3]
          unfold mk_square_matrix
          rw [hb]
          rfl
        · rw [if_neg h3]
          unfold mk_rectangular_matrix
          rw [hb]
          rfl


lemma WF_map_map {m : Mat α} {r c : ℕ} (h : WF m r c) (f : α → α) :
    WF (m.map (fun row => row.map f)) r c := by
  refine ⟨by simpa using h.1, ?_⟩
  intro row hrow
  simp only [List.mem_map] at hrow
  obtain ⟨row', hrow', rfl⟩ := hrow
  simpa using h.2 row' hrow'

lemma entry_map_map {m : Mat α} {r c : ℕ} (h : WF m r c) (f : α → α)
    {i j : ℕ} (hi : i < r) (hj : j < c) :
    entry (m.map (fun row => row.map f)) i j = f (entry m i j) := by
  have hi' : i < m.length := by rw [h.1]; exact hi
  have hi'' : i < (m.map (fun row => row.map f)).length := by simpa using hi'
  rw [entry_getD_getElem hi'', entry_getD_getElem hi', List.getElem_map]
  have hj' : j < (m[i]).length := by
    rw [h.2 _ (List.getElem_mem hi')]
    exact hj
  have hj'' : j < ((m[i]).map f).length := by simpa using hj'
  rw [List.getD_eq_getElem _ _ hj'', List.getD_eq_getElem _ _ hj', List.getElem_map]

/-- Counterexample to C6 as stated: with the scalar on the *right*, `M + c`
(resp. `-`, `*`) calls `Matrix.__add__`, whose first access `other.n_rows`
raises `AttributeError` instead of returning the elementwise result. -/
theorem C6_counterexample :
    py_add (.mat ⟨.rowVector, [[1]]⟩ : PyVal ℚ) (.scalar 2)
        = .error .attributeError ∧
    py_sub (.mat ⟨.rowVector, [[1]]⟩ : PyVal ℚ) (.scalar 2)
        = .error .attributeError ∧
    py_mul (.mat ⟨.rowVector, [[1]]⟩ : PyVal ℚ) (.scalar 2)
        = .error .attributeError := ⟨rfl, rfl, rfl⟩

/-- **C6 (amended).**  Scalar addition, subtraction and multiplication apply
the scalar to every element when the scalar is the *left* operand (Python
falls back to `__radd__`/`__rsub__`/`__rmul__`, which preserve the class and
shape); with the scalar on the right, `Matrix.__add__`/`__sub__`/`__mul__`
read `other.n_rows` and raise `AttributeError`. -/
theorem C6_scalar_ops {α : Type} [inst : LinearOrderedField α] (M : PyMatrix α)
    (c : α) {r k : ℕ} (hM : WF M.rows r k) (hr : 0 < r) (hk : 0 < k) :
    (∃ N, py_add (.scalar c) (.mat M) = .ok (.mat N) ∧ N.cls = M.cls ∧
      WF N.rows r k ∧ ∀ i < r, ∀ j < k, entry N.rows i j = c + entry M.rows i j) ∧
    (∃ N, py_sub (.scalar c) (.mat M) = .ok (.mat N) ∧ N.cls = M.cls ∧
      WF N.rows r k ∧ ∀ i < r, ∀ j < k, entry N.rows i j = c - entry M.rows i j) ∧
    (∃ N, py_mul (.scalar c) (.mat M) = .ok (.mat N) ∧ N.cls = M.cls ∧
      WF N.rows r k ∧ ∀ i < r, ∀ j < k, entry N.rows i j = c * entry M.rows i j) ∧
    py_add (.mat M) (.scalar c) = .error .attributeError ∧
    py_sub (.mat M) (.scalar c) = .error .attributeError ∧
    py_mul (.mat M) (.scalar c) = .error .attributeError := by
  refine ⟨⟨dunder_radd M c, rfl, rfl, WF_map_map hM _,
      fun i hi j hj => entry_map_map hM _ hi hj⟩,
    ⟨dunder_rsub M c, rfl, rfl, WF_map_map hM _,
      fun i hi j hj => entry_map_map hM _ hi hj⟩,
    ⟨dunder_rmul M c, rfl, rfl, WF_map_map hM _,
      fun i hi j hj => entry_map_map hM _ hi hj⟩,
    rfl, rfl, rfl⟩

/-- Witness for C6 (amended) on a concrete 1-by-2 row vector. -/
theorem C6_scalar_ops_witness :
    (∃ N, py_add (.scalar (3 : ℚ)) (.mat ⟨.rowVector, [[1, 2]]⟩) = .ok (.mat N) ∧
      N.cls = MatrixClass.rowVector ∧ WF N.rows 1 2 ∧
      ∀ i < 1, ∀ j < 2, entry N.rows i j = 3 + entry [[1, 2]] i j) ∧
    (∃ N, py_sub (.scalar (3 : ℚ)) (.mat ⟨.rowVector, [[1, 2]]⟩) = .ok (.mat N) ∧
      N.cls = MatrixClass.rowVector ∧ WF N.rows 1 2 ∧
      ∀ i < 1, ∀ j < 2, entry N.rows i j = 3 - entry [[1, 2]] i j) ∧
    (∃ N, py_mul (.scalar (3 : ℚ)) (.mat ⟨.rowVector, [[1, 2]]⟩) = .ok (.mat N) ∧
      N.cls = MatrixClass.rowVector ∧ WF N.rows 1 2 ∧
      ∀ i < 1, ∀ j < 2, entry N.rows i j = 3 * entry [[1, 2]] i j) ∧
    py_add (.mat ⟨.rowVector, [[1, 2]]⟩ : PyVal ℚ) (.scalar 3)
      = .error .attributeError ∧
    py_sub (.mat ⟨.rowVector, [[1, 2]]⟩ : PyVal ℚ) (.scalar 3)
      = .error .attributeError ∧
    py_mul (.mat ⟨.rowVector, [[1, 2]]⟩ : PyVal ℚ) (.scalar 3)
      = .error .attributeError := by
  have hM : WF ([[1, 2]] : Mat ℚ) 1 2 := ⟨rfl, by decide⟩
  exact C6_scalar_ops ⟨.rowVector, [[1, 2]]⟩ 3 hM (by norm_num) (by norm_num)

/-- Counterexample to C7 as stated: a 1-by-1 matrix built by `column_vector`
(a `ColumnVector`) and a 1-by-1 matrix built by `Matrix.make` (dispatched to
`RowVector`) have the same rows — hence the same shape and element values —
yet Python's `==` is `False` because the dataclass `__eq__` requires identical
classes. -/
theorem C7_counterexample :
    column_vector ([5] : List ℚ) = .ok ⟨.columnVector, [[5]]⟩ ∧
    make ([[5]] : Mat ℚ) = .ok ⟨.rowVector, [[5]]⟩ ∧
    (⟨.columnVector, [[5]]⟩ : PyMatrix ℚ).rows
      = (⟨.rowVector, [[5]]⟩ : PyMatrix ℚ).rows ∧
    ¬ py_eq (⟨.columnVector, [[5]]⟩ : PyMatrix ℚ) ⟨.rowVector, [[5]]⟩ := by
  refine ⟨rfl, rfl, rfl, ?_⟩
  intro h
  exact absurd h.1 (by decide)

/-- **C7 (amended).**  Python `==` between matrices holds iff the two values
have the same refinement class *and* identical rows; for values built through
`Matrix.make` this is exactly structural equality of the input rows (same
shape and identical element values), but values of different refinement
classes are never equal even with identical rows. -/
theorem C7_structural_equality {α : Type} [inst : LinearOrderedField α] :
    (∀ a b : PyMatrix α, py_eq a b ↔ a.cls = b.cls ∧ a.rows = b.rows) ∧
    (∀ (r₁ r₂ : Mat α) (m₁ m₂ : PyMatrix α),
      make r₁ = .ok m₁ → make r₂ = .ok m₂ → (py_eq m₁ m₂ ↔ r₁ = r₂)) := by
  refine ⟨fun a b => Iff.rfl, ?_⟩
  intro r₁ r₂ m₁ m₂ h₁ h₂
  constructor
  · intro h
    rw [← make_rows h₁, ← make_rows h₂]
    exact h.2
  · intro h
    subst h
    rw [h₁] at h₂
    injection h₂ with h₂
    rw [h₂]
    exact ⟨rfl, rfl⟩

/-- Witness for C7 (amended) on concrete `make` values. -/
theorem C7_structural_equality_witness :
    make ([[1, 2], [3, 4]] : Mat ℚ) = .ok ⟨.squareMatrix, [[1, 2], [3, 4]]⟩ ∧
    py_eq (⟨.squareMatrix, [[1, 2], [3, 4]]⟩ : PyMatrix ℚ)
      ⟨.squareMatrix, [[1, 2], [3, 4]]⟩ := by
  have hmk : make ([[1, 2], [3, 4]] : Mat ℚ)
      = .ok ⟨.squareMatrix, [[1, 2], [3, 4]]⟩ := rfl
  exact ⟨hmk,
    ((C7_structural_equality (α := ℚ)).2 [[1, 2], [3, 4]] [[1, 2], [3, 4]] _ _
      hmk hmk).mpr rfl⟩

/-- Counterexample to C8 as stated: construction from an *empty* sequence of
rows through `Matrix.make` fails with `IndexError` (raised by `len(rows[0])`),
not with the `ValueError` modelling the spec's ShapeError. -/
theorem C8_counterexample :
    make ([] : Mat ℚ) = .error .indexError ∧
    PyError.indexError ≠ PyError.valueError := ⟨rfl, by decide⟩

/-- **C8 (amended).**  `Matrix.make` on an empty rows sequence fails with
`IndexError`; on a non-empty sequence it succeeds — preserving the rows —
exactly when the rows form a rectangle with at least one column, and otherwise
(rows with no columns, or inconsistent row lengths) it fails with the
`ValueError` modelling ShapeError. -/
theorem C8_construction (α : Type) [inst : LinearOrderedField α] :
    make ([] : Mat α) = .error .indexError ∧
    (∀ rows : Mat α, rows ≠ [] →
      ((∃ m, make rows = .ok m ∧ m.rows = rows) ↔
        ∃ c, 0 < c ∧ ∀ row ∈ rows, row.length = c)) ∧
    (∀ rows : Mat α, rows ≠ [] →
      (make rows = .error .valueError ↔
        ¬ ∃ c, 0 < c ∧ ∀ row ∈ rows, row.length = c)) := by
  refine ⟨rfl, ?_, ?_⟩
  · intro rows hne
    constructor
    · rintro ⟨m, hm, _⟩
      exact (base_post_init_ok hne).mp (make_ok_base hm)
    · intro hrect
      rcases make_cases hne with ⟨_, hcase⟩ | ⟨hb, _⟩
      · exact hcase
      · exact absurd ((base_post_init_ok hne).mpr hrect) (by rw [hb]; simp)
  · intro rows hne
    constructor
    · intro h hrect
      rcases make_cases hne with ⟨_, m, hm, _⟩ | ⟨hb, _⟩
      · rw [hm] at h
        exact absurd h (by simp)
      · exact absurd ((base_post_init_ok hne).mpr hrect) (by rw [hb]; simp)
    · intro hrect
      rcases make_cases hne with ⟨hb, _⟩ | ⟨_, hcase⟩
      · exact absurd ((base_post_init_ok hne).mp hb) hrect
      · exact hcase

/-- Witness for C8 (amended) on concrete inputs: ragged rows fail with
`ValueError`, a rectangle constructs. -/
theorem C8_construction_witness :
    make ([] : Mat ℚ) = .error .indexError ∧
    make ([[1, 2], [3]] : Mat ℚ) = .error .valueError ∧
    (∃ m, make ([[1, 2], [3, 4]] : Mat ℚ) = .ok m ∧ m.rows = [[1, 2], [3, 4]]) := by
  refine ⟨(C8_construction ℚ).1, ?_, ?_⟩
  · refine ((C8_construction ℚ).2.2 [[1, 2], [3]] (by simp)).mpr ?_
    rintro ⟨c, hc, hall⟩
    have h1 := hall [1, 2] (by simp)
    have h2 := hall [3] (by simp)
    simp at h1 h2
    omega
  · exact ((C8_construction ℚ).2.1 [[1, 2], [3, 4]] (by simp)).mpr
      ⟨2, by norm_num, by decide⟩

/-! ### Shape and entry lemmas for the distribution layer -/

lemma WF_transpose {m : Mat α} {r c : ℕ} (h : WF m r c) (h0 : 0 < r) :
    WF (transpose m) c r := by
  refine ⟨by simp [transpose, columns, h.n_columns_eq h0], ?_⟩
  intro row hrow
  simp only [transpose, columns, List.mem_map] at hrow
  obtain ⟨j, hj, rfl⟩ := hrow
  rw [column_length, h.1]

lemma entry_transpose {m : Mat α} {r c : ℕ} (h : WF m r c) (h0 : 0 < r)
    {i : ℕ} (hi : i < c) (j : ℕ) :
    entry (transpose m) i j = entry m j i := by
  have h1 : (transpose m).getD i [] = column m i := by
    unfold transpose columns
    rw [getD_map_range, if_pos (by rw [h.n_columns_eq h0]; exact hi)]
  show ((transpose m).getD i []).getD j 0 = entry m j i
  rw [h1]
  exact column_getD m i j

lemma WF_mat_sub {A B : Mat α} {r c : ℕ} (hA : WF A r c) (hB : WF B r c) :
    WF (mat_sub A B) r c := by
  refine ⟨by simp [mat_sub, hA.1, hB.1], ?_⟩
  intro row hrow
  rw [List.mem_iff_getElem] at hrow
  obtain ⟨i, hi, rfl⟩ := hrow
  simp only [mat_sub, List.length_zipWith, hA.1, hB.1, min_self] at hi
  have hiA : i < A.length := by rw [hA.1]; exact hi
  have hiB : i < B.length := by rw [hB.1]; exact hi
  simp only [mat_sub]
  rw [List.getElem_zipWith, List.length_zipWith,
    hA.2 _ (List.getElem_mem hiA), hB.2 _ (List.getElem_mem hiB), min_self]

lemma entry_mat_sub {A B : Mat α} {r c : ℕ} (hA : WF A r c) (hB : WF B r c)
    {i j : ℕ} (hi : i < r) (hj : j < c) :
    entry (mat_sub A B) i j = entry A i j - entry B i j := by
  have hS := WF_mat_sub hA hB
  have hiS : i < (mat_sub A B).length := by rw [hS.1]; exact hi
  have hiA : i < A.length := by rw [hA.1]; exact hi
  have hiB : i < B.length := by rw [hB.1]; exact hi
  rw [entry_getD_getElem hiS, entry_getD_getElem hiA, entry_getD_getElem hiB]
  have hrow : (mat_sub A B)[i] = List.zipWith (· - ·) (A[i]) (B[i]) := by
    simp only [mat_sub]
    rw [List.getElem_zipWith]
  rw [hrow]
  have hjA : j < (A[i]).length := by rw [hA.2 _ (List.getElem_mem hiA)]; exact hj
  have hjB : j < (B[i]).length := by rw [hB.2 _ (List.getElem_mem hiB)]; exact hj
  have hjS : j < (List.zipWith (α := α) (· - ·) (A[i]) (B[i])).length := by
    rw [List.length_zipWith]
    exact lt_min hjA hjB
  rw [List.getD_eq_getElem _ _ hjS, List.getD_eq_getElem _ _ hjA,
    List.getD_eq_getElem _ _ hjB, List.getElem_zipWith]

lemma as_scalar_ok {m : Mat α} (h : WF m 1 1) :
    as_scalar m = .ok (entry m 0 0) := by
  unfold as_scalar
  rw [if_pos ⟨h.n_rows_eq, h.n_columns_eq one_pos⟩]

lemma WF_multiply_of {A B : Mat α} {r m c : ℕ} (hA : WF A r m) (hB : WF B m c)
    (h0 : 0 < m) : WF (multiply A B) r c := by
  have h := WF_multiply A B
  rwa [hA.1, hB.n_columns_eq h0] at h

lemma quad_entry {u M v : Mat α} {k : ℕ} (h0 : 0 < k)
    (hu : WF u k 1) (hM : WF M k k) (hv : WF v k 1) :
    entry (multiply (multiply (transpose u) M) v) 0 0 =
      ∑ s ∈ Finset.range k, ∑ t ∈ Finset.range k,
        entry u s 0 * entry M s t * entry v t 0 := by
  have htu : WF (transpose u) 1 k := WF_transpose hu h0
  have h1 : WF (multiply (transpose u) M) 1 k := WF_multiply_of htu hM h0
  calc entry (multiply (multiply (transpose u) M) v) 0 0
      = ∑ t ∈ Finset.range k,
          entry (multiply (transpose u) M) 0 t * entry v t 0 :=
        entry_multiply_sum h1 hv h0 one_pos one_pos
    _ = ∑ t ∈ Finset.range k,
          (∑ s ∈ Finset.range k, entry u s 0 * entry M s t) * entry v t 0 := by
        refine Finset.sum_congr rfl fun t ht => ?_
        rw [entry_multiply_sum htu hM h0 one_pos (Finset.mem_range.mp ht)]
        congr 1
        refine Finset.sum_congr rfl fun s hs => ?_
        rw [entry_transpose hu h0 one_pos s]
    _ = ∑ t ∈ Finset.range k, ∑ s ∈ Finset.range k,
          entry u s 0 * entry M s t * entry v t 0 := by
        refine Finset.sum_congr rfl fun t ht => ?_
        rw [Finset.sum_mul]
    _ = ∑ s ∈ Finset.range k, ∑ t ∈ Finset.range k,
          entry u s 0 * entry M s t * entry v t 0 := Finset.sum_comm

/-! ### The flattened dot product of `ExponentialFamily.density` -/

lemma flatten_eq {m : Mat α} {r c : ℕ} (h : WF m r c) (h0 : 0 < r) :
    flatten m = (List.range r).flatMap
      (fun i => (List.range c).map (fun j => entry m i j)) := by
  unfold flatten
  rw [h.n_rows_eq, h.n_columns_eq h0]

lemma length_flatMap_const {β : Type} (n c : ℕ) (f : ℕ → List β)
    (h : ∀ i, (f i).length = c) : ((List.range n).flatMap f).length = n * c := by
  induction n with
  | zero => simp
  | succ n ih =>
    rw [List.range_succ, List.flatMap_append, List.length_append, ih]
    simp [h, Nat.succ_mul]

lemma length_flatten {m : Mat α} {r c : ℕ} (h : WF m r c) (h0 : 0 < r) :
    (flatten m).length = r * c := by
  rw [flatten_eq h h0]
  exact length_flatMap_const r c _ (fun i => by simp)

lemma dot_append {xs ys zs ws : List α} (h : xs.length = zs.length) :
    dot (xs ++ ys) (zs ++ ws) = dot xs zs + dot ys ws := by
  unfold dot
  rw [List.zipWith_append _ _ _ _ _ h, List.sum_append]

lemma dot_flatMap (l : List ℕ) (f g : ℕ → List α)
    (h : ∀ i ∈ l, (f i).length = (g i).length) :
    dot (l.flatMap f) (l.flatMap g) = (l.map (fun i => dot (f i) (g i))).sum := by
  induction l with
  | nil => simp [dot]
  | cons a l ih =>
    rw [List.flatMap_cons, List.flatMap_cons, dot_append (h a (List.mem_cons_self a l)),
      List.map_cons, List.sum_cons, ih (fun i hi => h i (List.mem_cons_of_mem a hi))]

lemma list_sum_range (n : ℕ) (f : ℕ → α) :
    ((List.range n).map f).sum = ∑ i ∈ Finset.range n, f i := by
  induction n with
  | zero => simp
  | succ n ih =>
    rw [List.range_succ, List.map_append, List.sum_append, Finset.sum_range_succ, ih]
    simp

lemma dot_map_range_two (n : ℕ) (f g : ℕ → α) :
    dot ((List.range n).map f) ((List.range n).map g)
      = ∑ j ∈ Finset.range n, f j * g j := by
  rw [dot_map_range n f _ (by simp)]
  refine Finset.sum_congr rfl fun j hj => ?_
  rw [getD_map_range, if_pos (Finset.mem_range.mp hj)]

lemma dot_flatten_flatten {A B : Mat α} {r c : ℕ} (hA : WF A r c) (hB : WF B r c)
    (h0 : 0 < r) :
    dot (flatten A) (flatten B)
      = ∑ i ∈ Finset.range r, ∑ j ∈ Finset.range c, entry A i j * entry B i j := by
  calc dot (flatten A) (flatten B)
      = ((List.range r).map (fun i =>
          dot ((List.range c).map (fun j => entry A i j))
              ((List.range c).map (fun j => entry B i j)))).sum := by
        rw [flatten_eq hA h0, flatten_eq hB h0]
        exact dot_flatMap _ _ _ (fun i _ => by simp)
    _ = ((List.range r).map (fun i =>
          ∑ j ∈ Finset.range c, entry A i j * entry B i j)).sum := by
        congr 1
        refine List.map_congr_left fun i hi => ?_
        exact dot_map_range_two c _ _
    _ = ∑ i ∈ Finset.range r, ∑ j ∈ Finset.range c, entry A i j * entry B i j :=
        list_sum_range r _

lemma WF_column_vector_rows (L : List α) : WF (column_vector_rows L) L.length 1 := by
  refine ⟨by simp [column_vector_rows], ?_⟩
  intro row hrow
  simp only [column_vector_rows, List.mem_map] at hrow
  obtain ⟨e, _, rfl⟩ := hrow
  rfl

lemma entry_column_vector_rows (L : List α) (i : ℕ) :
    entry (column_vector_rows L) i 0 = L.getD i 0 := by
  by_cases h : i < L.length
  · have h' : i < (column_vector_rows L).length := by
      simpa [column_vector_rows] using h
    rw [entry_getD_getElem h', List.getD_eq_getElem _ _ h]
    simp only [column_vector_rows, List.getElem_map]
    rfl
  · rw [entry_eq_zero_of_le (WF_column_vector_rows L) (not_lt.mp h),
      List.getD_eq_default _ _ (not_lt.mp h)]

lemma dp_eq_dot {N : ℕ} {L₁ L₂ : List α} (h₁ : L₁.length = N) (h₂ : L₂.length = N)
    (h0 : 0 < N) :
    entry (multiply (transpose (column_vector_rows L₁)) (column_vector_rows L₂)) 0 0
      = dot L₁ L₂ := by
  have hw₁ : WF (column_vector_rows L₁) N 1 := by
    rw [← h₁]; exact WF_column_vector_rows L₁
  have hw₂ : WF (column_vector_rows L₂) N 1 := by
    rw [← h₂]; exact WF_column_vector_rows L₂
  have htw : WF (transpose (column_vector_rows L₁)) 1 N := WF_transpose hw₁ h0
  rw [entry_multiply_sum htw hw₂ h0 one_pos one_pos]
  rw [dot_eq_sum, h₁, h₂, min_self]
  refine Finset.sum_congr rfl fun t ht => ?_
  rw [entry_transpose hw₁ h0 one_pos t, entry_column_vector_rows, entry_column_vector_rows]

/-! ### `invert` as a two-sided inverse; the code determinant as the true one -/

lemma invert_ok {A P : Mat α} (h : invert A = .ok P) :
    ∃ X ops, solve A (identity_matrix (n_rows A)) = .ok (X, ops) ∧ X = P := by
  unfold invert at h
  cases hs : solve A (identity_matrix (n_rows A)) with
  | error e =>
    rw [hs] at h
    exact absurd h (by simp [Except.instMonad, Except.bind])
  | ok p =>
    obtain ⟨X, ops⟩ := p
    rw [hs] at h
    simp only [Except.instMonad, Except.bind, Except.pure, Except.ok.injEq] at h
    exact ⟨X, ops, rfl, h⟩

lemma determinant_true {n : ℕ} {A X : Mat α} {ops : List (ElementaryRowOperator α)}
    (hA : WF A n n) (h0 : 0 < n)
    (hsolve : solve A (identity_matrix n) = .ok (X, ops)) :
    determinant A = .ok ((toM n n A).det) := by
  obtain ⟨hX, hid, hXwf, hvalid, hmult, hblocks⟩ :=
    solve_spec hA (WF_identity n) h0 h0 hsolve
  have hne : ops ≠ [] := by
    obtain ⟨blocks, rfl, hlen, hall⟩ := hblocks
    cases blocks with
    | nil =>
      simp only [List.length_nil] at hlen
      omega
    | cons b bs =>
      obtain ⟨p, k, s, axs, rfl, _, _⟩ := hall b (List.mem_cons_self b bs)
      simp
  have hdet_prod : (ops.map (fun op => op.inverted.matrix_determinant)).prod
      = (toM n n A).det := by
    have h1 : toM n n (apply_operators A ops) = ops_product n ops * toM n n A :=
      toM_apply_operators h0 ops hA
    rw [hid, toM_identity] at h1
    have h2 := congrArg Matrix.det h1
    rw [Matrix.det_one, Matrix.det_mul, det_ops_product ops hvalid] at h2
    rw [prod_inverted_dets]
    exact (eq_inv_of_mul_eq_one_right h2.symm).symm
  obtain ⟨op0, rest, rfl⟩ := List.exists_cons_of_ne_nil hne
  have hform : determinant A =
      .ok ((((op0 :: rest)).map (fun op => op.inverted.matrix_determinant)).prod) := by
    unfold determinant
    rw [hA.n_rows_eq, hsolve]
    show Except.ok (List.foldl (fun x1 x2 => x1 * x2)
      (op0.inverted.matrix_determinant)
      (rest.map (fun op => op.inverted.matrix_determinant))) = _
    rw [foldl_mul_eq_prod]
    rfl
  rw [hform, hdet_prod]

lemma invert_two_sided {n : ℕ} {A P : Mat α} (hA : WF A n n) (h0 : 0 < n)
    (h : invert A = .ok P) :
    WF P n n ∧ multiply A P = identity_matrix n ∧ multiply P A = identity_matrix n ∧
      toM n n A * toM n n P = 1 ∧ toM n n P * toM n n A = 1 := by
  obtain ⟨X, ops, hsolve, rfl⟩ := invert_ok h
  rw [hA.n_rows_eq] at hsolve
  obtain ⟨hXdef, hid, hXwf, hvalid, _, _⟩ := solve_spec hA (WF_identity n) h0 h0 hsolve
  have hright : multiply A X = identity_matrix n :=
    solve_mul_eq hA (WF_identity n) h0 h0 hsolve
  have htoM_right : toM n n A * toM n n X = 1 := by
    rw [← toM_multiply hA hXwf h0, hright, toM_identity]
  have htoM_left : toM n n X * toM n n A = 1 := Matrix.mul_eq_one_comm.mp htoM_right
  have hleft : multiply X A = identity_matrix n := by
    have hw : WF (multiply X A) n n := WF_multiply_of hXwf hA h0
    refine toM_inj hw (WF_identity n) ?_
    rw [toM_multiply hXwf hA h0, toM_identity, htoM_left]
  exact ⟨hXwf, hright, hleft, htoM_right, htoM_left⟩

lemma precision_symm {n : ℕ} {A P : Mat α} (hA : WF A n n) (hP : WF P n n)
    (hsym : ∀ i < n, ∀ j < n, entry A i j = entry A j i)
    (hAP : toM n n A * toM n n P = 1) :
    ∀ i < n, ∀ j < n, entry P i j = entry P j i := by
  have hPinv : (toM n n A)⁻¹ = toM n n P := Matrix.inv_eq_right_inv hAP
  have hAT : Matrix.transpose (toM n n A) = toM n n A := by
    ext i j
    show entry A (j : ℕ) (i : ℕ) = entry A (i : ℕ) (j : ℕ)
    exact (hsym i.val i.isLt j.val j.isLt).symm
  have hPT : Matrix.transpose (toM n n P) = toM n n P := by
    rw [← hPinv, Matrix.transpose_nonsing_inv, hAT]
  intro i hi j hj
  have h2 : Matrix.transpose (toM n n P) ⟨j, hj⟩ ⟨i, hi⟩ = toM n n P ⟨j, hj⟩ ⟨i, hi⟩ := by
    rw [hPT]
  exact h2

/-! ### Entry computations for the Gaussian hooks -/

lemma entry_scalar_mul {m : Mat α} {r c : ℕ} (h : WF m r c) (s : α)
    {i j : ℕ} (hi : i < r) (hj : j < c) :
    entry (scalar_mul s m) i j = s * entry m i j :=
  entry_map_map h (fun x => s * x) hi hj

lemma WF_scalar_mul {m : Mat α} {r c : ℕ} (h : WF m r c) (s : α) :
    WF (scalar_mul s m) r c :=
  WF_map_map h (fun x => s * x)

lemma entry_mul_transpose_self {x : Mat α} {k : ℕ} (hx : WF x k 1) (h0 : 0 < k)
    {i j : ℕ} (hi : i < k) (hj : j < k) :
    entry (multiply x (transpose x)) i j = entry x i 0 * entry x j 0 := by
  rw [entry_multiply_sum hx (WF_transpose hx h0) one_pos hi hj, Finset.sum_range_one,
    entry_transpose hx h0 one_pos j]

/-- **C2.**  `GaussianDistribution.of(μ, Σ).density(x)`, as assembled by
`ExponentialFamily.density` from the four Gaussian hooks, equals the
closed-form multivariate normal density
`(2π)^(−k/2)·det(Σ)^(−1/2)·exp(−½(x−μ)ᵀΣ⁻¹(x−μ))` — with `Σ⁻¹` the code's
precision matrix, which is a genuine two-sided inverse of `Σ`, and `det Σ`
the true (Mathlib) determinant — for every dimension `k`, mean and
observation column vectors, and symmetric covariance of positive determinant
on which inversion succeeds; and for mean 0, variance 1, `x = 0` the density
is `(2π)^(−1/2)`, which is within `10⁻⁶` of `0.398942`. -/
theorem C2_gaussian_density :
    (∀ (k : ℕ) (mean covariance x P : Mat ℝ),
      0 < k → WF mean k 1 → WF covariance k k → WF x k 1 →
      (∀ i < k, ∀ j < k, entry covariance i j = entry covariance j i) →
      0 < (toM k k covariance).det →
      invert covariance = .ok P →
      multiply covariance P = identity_matrix k ∧
      multiply P covariance = identity_matrix k ∧
      gaussian_density mean covariance x =
        .ok (closed_form_normal_density k P ((toM k k covariance).det) mean x)) ∧
    gaussian_density [[0]] [[1]] [[0]] = .ok ((2 * Real.pi) ^ (-(1 : ℝ) / 2)) ∧
    |(2 * Real.pi) ^ (-(1 : ℝ) / 2) - 0.398942| < 1 / 1000000 := by
  refine ⟨?_, ?_, ?_⟩
  · intro k mean covariance x P h0 hmean hA hx hsym hd hinv
    obtain ⟨hP, hright, hleft, htoMr, htoMl⟩ := invert_two_sided hA h0 hinv
    refine ⟨hright, hleft, ?_⟩
    obtain ⟨X, ops, hsolve, hXP⟩ := invert_ok hinv
    rw [hA.n_rows_eq] at hsolve
    have hdet : determinant covariance = .ok ((toM k k covariance).det) :=
      determinant_true hA h0 hsolve
    have hPsym : ∀ i < k, ∀ j < k, entry P i j = entry P j i :=
      precision_symm hA hP hsym htoMr
    have hmtmwf : WF (multiply (multiply (transpose mean) P) mean) 1 1 :=
      WF_multiply_of (WF_multiply_of (WF_transpose hmean h0) hP h0) hmean h0
    have hPm : WF (multiply P mean) k 1 := WF_multiply_of hP hmean h0
    have hxxTwf : WF (multiply x (transpose x)) k k :=
      WF_multiply_of hx (WF_transpose hx h0) one_pos
    have hlen1 : (flatten (multiply P mean)).length = k * 1 := length_flatten hPm h0
    have hlen2 : (flatten (scalar_mul (-(1 / 2)) P)).length = k * k :=
      length_flatten (WF_scalar_mul hP _) h0
    have hlen3 : (flatten x).length = k * 1 := length_flatten hx h0
    have hlen4 : (flatten (multiply x (transpose x))).length = k * k :=
      length_flatten hxxTwf h0
    have hN : 0 < k * 1 + k * k := Nat.add_pos_left (by simpa using h0) _
    have hη : WF (column_vector_rows
        (flatten (multiply P mean) ++ flatten (scalar_mul (-(1 / 2)) P)))
        (k * 1 + k * k) 1 := by
      have h := WF_column_vector_rows
        (flatten (multiply P mean) ++ flatten (scalar_mul (-(1 / 2)) P))
      rwa [List.length_append, hlen1, hlen2] at h
    have hT : WF (column_vector_rows
        (flatten x ++ flatten (multiply x (transpose x)))) (k * 1 + k * k) 1 := by
      have h := WF_column_vector_rows (flatten x ++ flatten (multiply x (transpose x)))
      rwa [List.length_append, hlen3, hlen4] at h
    have hdpwf : WF (multiply
        (transpose (column_vector_rows
          (flatten (multiply P mean) ++ flatten (scalar_mul (-(1 / 2)) P))))
        (column_vector_rows (flatten x ++ flatten (multiply x (transpose x))))) 1 1 :=
      WF_multiply_of (WF_transpose hη hN) hT hN
    have hmtm := quad_entry h0 hmean hP hmean
    have hdp : entry (multiply
        (transpose (column_vector_rows
          (flatten (multiply P mean) ++ flatten (scalar_mul (-(1 / 2)) P))))
        (column_vector_rows (flatten x ++ flatten (multiply x (transpose x))))) 0 0
        = (∑ s ∈ Finset.range k, ∑ t ∈ Finset.range k,
            entry x s 0 * entry P s t * entry mean t 0)
          - 1 / 2 * (∑ s ∈ Finset.range k, ∑ t ∈ Finset.range k,
            entry x s 0 * entry P s t * entry x t 0) := by
      rw [dp_eq_dot (N := k * 1 + k * k) (by rw [List.length_append, hlen1, hlen2])
        (by rw [List.length_append, hlen3, hlen4]) hN]
      rw [dot_append (by rw [hlen1, hlen3])]
      rw [dot_flatten_flatten hPm hx h0,
        dot_flatten_flatten (WF_scalar_mul hP _) hxxTwf h0]
      have t1 : (∑ i ∈ Finset.range k, ∑ j ∈ Finset.range 1,
            entry (multiply P mean) i j * entry x i j)
          = ∑ s ∈ Finset.range k, ∑ t ∈ Finset.range k,
              entry x s 0 * entry P s t * entry mean t 0 := by
        refine Finset.sum_congr rfl fun i hi => ?_
        rw [Finset.sum_range_one,
          entry_multiply_sum hP hmean h0 (Finset.mem_range.mp hi) one_pos,
          Finset.sum_mul]
        refine Finset.sum_congr rfl fun t ht => ?_
        ring
      have t2 : (∑ i ∈ Finset.range k, ∑ j ∈ Finset.range k,
            entry (scalar_mul (-(1 / 2)) P) i j * entry (multiply x (transpose x)) i j)
          = -(1 / 2 * (∑ s ∈ Finset.range k, ∑ t ∈ Finset.range k,
              entry x s 0 * entry P s t * entry x t 0)) := by
        have e1 : ∀ i ∈ Finset.range k, (∑ j ∈ Finset.range k,
            entry (scalar_mul (-(1 / 2)) P) i j * entry (multiply x (transpose x)) i j)
            = ∑ j ∈ Finset.range k,
              (-(1 / 2)) * (entry x i 0 * entry P i j * entry x j 0) := by
          intro i hi
          refine Finset.sum_congr rfl fun j hj => ?_
          rw [entry_scalar_mul hP _ (Finset.mem_range.mp hi) (Finset.mem_range.mp hj),
            entry_mul_transpose_self hx h0 (Finset.mem_range.mp hi)
              (Finset.mem_range.mp hj)]
          ring
        rw [Finset.sum_congr rfl e1]
        simp only [← Finset.mul_sum]
        ring
      rw [t1, t2]
      ring
    have hsub : WF (mat_sub x mean) k 1 := WF_mat_sub hx hmean
    have hswap : (∑ s ∈ Finset.range k, ∑ t ∈ Finset.range k,
          entry mean s 0 * entry P s t * entry x t 0)
        = ∑ s ∈ Finset.range k, ∑ t ∈ Finset.range k,
          entry x s 0 * entry P s t * entry mean t 0 := by
      rw [Finset.sum_comm]
      refine Finset.sum_congr rfl fun s hs => Finset.sum_congr rfl fun t ht => ?_
      rw [hPsym t (Finset.mem_range.mp ht) s (Finset.mem_range.mp hs)]
      ring
    have hqf : entry (multiply (multiply (transpose (mat_sub x mean)) P)
          (mat_sub x mean)) 0 0
        = (∑ s ∈ Finset.range k, ∑ t ∈ Finset.range k,
            entry x s 0 * entry P s t * entry x t 0)
          - 2 * (∑ s ∈ Finset.range k, ∑ t ∈ Finset.range k,
            entry x s 0 * entry P s t * entry mean t 0)
          + (∑ s ∈ Finset.range k, ∑ t ∈ Finset.range k,
            entry mean s 0 * entry P s t * entry mean t 0) := by
      rw [quad_entry h0 hsub hP hsub]
      have e1 : ∀ s ∈ Finset.range k, (∑ t ∈ Finset.range k,
          entry (mat_sub x mean) s 0 * entry P s t * entry (mat_sub x mean) t 0)
          = ∑ t ∈ Finset.range k,
            (entry x s 0 * entry P s t * entry x t 0
              - entry x s 0 * entry P s t * entry mean t 0
              - entry mean s 0 * entry P s t * entry x t 0
              + entry mean s 0 * entry P s t * entry mean t 0) := by
        intro s hs
        refine Finset.sum_congr rfl fun t ht => ?_
        rw [entry_mat_sub hx hmean (Finset.mem_range.mp hs) one_pos,
          entry_mat_sub hx hmean (Finset.mem_range.mp ht) one_pos]
        ring
      rw [Finset.sum_congr rfl e1]
      simp only [Finset.sum_add_distrib, Finset.sum_sub_distrib]
      rw [hswap]
      ring
    unfold gaussian_density
    rw [show precision covariance = Except.ok P from hinv]
    simp only [Except.instMonad, Except.bind]
    rw [hdet]
    simp only [Except.instMonad, Except.bind]
    rw [as_scalar_ok hmtmwf]
    simp only [Except.instMonad, Except.bind]
    rw [as_scalar_ok hdpwf]
    simp only [Except.instMonad, Except.bind, Except.pure]
    unfold closed_form_normal_density
    rw [hx.n_rows_eq, hmtm, hdp, hqf]
    rw [Real.rpow_def_of_pos hd]
    congr 1
    rw [mul_assoc, ← Real.exp_add]
    congr 2
    ring
  · norm_num [gaussian_density, precision, invert, determinant, as_scalar, flatten,
      scalar_mul, column_vector_rows, transpose, solve, operate_on_one_column,
      partial_pivot_operator, pivot_search, non_diagonal_zeroing_operators,
      diagonal_scaling_operator, tolerance, entry, n_rows, n_columns,
      ElementaryRowOperator.apply, ElementaryRowOperator.operator_matrix,
      ElementaryRowOperator.perm_matrix, ElementaryRowOperator.mult_matrix,
      ElementaryRowOperator.axpy_matrix, ElementaryRowOperator.unit_row,
      ElementaryRowOperator.inverted, ElementaryRowOperator.matrix_determinant,
      apply_operators, multiply, columns, column, dot, identity_matrix,
      List.range_succ, List.range', Function.comp, abs_of_nonneg, abs_of_nonpos,
      Except.instMonad, Except.bind, Except.map, Except.pure,
      Real.log_one, Real.exp_zero]
  · have h2π : (0 : ℝ) < 2 * Real.pi := by positivity
    set s : ℝ := (2 * Real.pi) ^ ((1 : ℝ) / 2) with hs
    have hspos : 0 < s := Real.rpow_pos_of_pos h2π _
    have hs2 : s * s = 2 * Real.pi := by
      rw [hs, ← Real.rpow_add h2π]
      norm_num
    have hπl : 3.141592 < Real.pi := Real.pi_gt_d6
    have hπu : Real.pi < 3.141593 := Real.pi_lt_d6
    have hsl : 2.506628 < s := by nlinarith [hs2, hspos, hπl]
    have hsu : s < 2.5066285 := by nlinarith [hs2, hspos, hπu]
    have hexp : (-(1 : ℝ) / 2) = -((1 : ℝ) / 2) := by norm_num
    have hcs : (2 * Real.pi) ^ (-(1 : ℝ) / 2) = s⁻¹ := by
      rw [hexp, Real.rpow_neg (le_of_lt h2π), hs]
    rw [hcs, abs_sub_lt_iff]
    have hcs' : s⁻¹ * s = 1 := inv_mul_cancel₀ (ne_of_gt hspos)
    have hcpos : 0 < s⁻¹ := inv_pos.mpr hspos
    constructor <;> nlinarith [hcs', hcpos, hsl, hsu]

/-- Witness for C2's universally quantified part at `k = 1`, mean `[[0]]`,
covariance `[[1]]`, observation `[[0]]`, precision `[[1]]`. -/
theorem C2_gaussian_density_witness :
    multiply ([[1]] : Mat ℝ) [[1]] = identity_matrix 1 ∧
    multiply ([[1]] : Mat ℝ) [[1]] = identity_matrix 1 ∧
    gaussian_density [[0]] [[1]] [[0]] =
      .ok (closed_form_normal_density 1 [[1]]
        ((toM 1 1 ([[1]] : Mat ℝ)).det) [[0]] [[0]]) :=
  C2_gaussian_density.1 1 [[0]] [[1]] [[0]] [[1]] one_pos
    ⟨rfl, by intro row h; rw [List.mem_singleton.mp h]; rfl⟩
    ⟨rfl, by intro row h; rw [List.mem_singleton.mp h]; rfl⟩
    ⟨rfl, by intro row h; rw [List.mem_singleton.mp h]; rfl⟩
    (by
      intro i hi j hj
      have hi0 : i = 0 := by omega
      have hj0 : j = 0 := by omega
      rw [hi0, hj0])
    (by
      rw [Matrix.det_fin_one]
      norm_num [toM, Matrix.of_apply, entry])
    (by
      norm_num [invert, solve, operate_on_one_column, partial_pivot_operator,
        pivot_search, non_diagonal_zeroing_operators, diagonal_scaling_operator,
        tolerance, entry, n_rows, n_columns, ElementaryRowOperator.apply,
        ElementaryRowOperator.operator_matrix, ElementaryRowOperator.perm_matrix,
        ElementaryRowOperator.mult_matrix, ElementaryRowOperator.axpy_matrix,
        ElementaryRowOperator.unit_row, apply_operators, multiply, columns, column,
        dot, identity_matrix, List.range_succ, List.range', Function.comp,
        abs_of_nonneg, abs_of_nonpos, Except.instMonad, Except.bind, Except.map,
        Except.pure])

end EFD
